import Mathlib

/-!
Verification development for the translation resolution engine of the
spring-i18n-ally editor plugin (class I18nManager in src/i18nManager.ts).

The engine is shallowly embedded: the per-locale cache is an insertion-ordered
association list (mirroring a JS object / Map), flat translation files are
modeled through the documented semantics of the properties-reader npm library
(line parsing, value trimming, overwriting set, and the number/boolean/escape
coercion performed by get), and tree files carry their js-yaml parse result as
a structured value (yaml.load and yaml.dump are treated as inverse, which is
the documented contract of js-yaml on maps of scalars).  Text positions follow
the VS Code document model: offsets count UTF-16 units, here modeled as one
unit per character, and line breaks are modeled as a single newline character.
Out-of-range positions are clamped to the document end, as VS Code does.
-/

namespace SpringI18n

/-! ## JS string primitives -/

/-- Characters matched by the JS regex class backslash-s that can occur in the
modeled texts (space, tab, newline, carriage return, vertical tab, form feed). -/
def jsWs (c : Char) : Bool :=
  c = ' ' || c = '\t' || c = '\n' || c = '\r' || c = '\x0b' || c = '\x0c'

/-- Model of the ASCII letter class of the locale-suffix regex. -/
def isAlphaJs (c : Char) : Bool :=
  ('a' ≤ c && c ≤ 'z') || ('A' ≤ c && c ≤ 'Z')

/-- Drop leading JS whitespace. -/
def trimStartL (cs : List Char) : List Char := cs.dropWhile jsWs

/-- Drop trailing JS whitespace (JS trimEnd). -/
def trimEndL (cs : List Char) : List Char := (cs.reverse.dropWhile jsWs).reverse

/-- JS String.prototype.trim on a character list. -/
def trimJsL (cs : List Char) : List Char := trimEndL (trimStartL cs)

/-- JS String.prototype.trim. -/
def trimJs (s : String) : String := ⟨trimJsL s.data⟩

/-- A line is blank when its trim is empty (the JS truthiness test on trim). -/
def blankJs (s : String) : Bool := s.data.all jsWs

/-- Model of line.search of the first non-whitespace character, meaningful for
non-blank lines: the number of leading whitespace characters. -/
def indentOf (s : String) : Nat := (s.data.takeWhile jsWs).length

/-- Structural model of JS String.prototype.split with a one-character
separator: splitting never yields the empty list. -/
def splitOnChar (sep : Char) : List Char → List (List Char)
  | [] => [[]]
  | c :: rest =>
    let r := splitOnChar sep rest
    if c = sep then [] :: r
    else
      match r with
      | [] => [[c]]
      | g :: gs => (c :: g) :: gs

/-- text.split with a newline separator, as lists of line strings. -/
def linesOf (text : String) : List String :=
  (splitOnChar '\n' text.data).map (fun l => ⟨l⟩)

/-- key.split with a dot separator. -/
def splitKey (key : String) : List String :=
  (splitOnChar '.' key.data).map (fun l => ⟨l⟩)

/-- JS String.prototype.startsWith. -/
def startsWithJs (s pfx : String) : Bool := pfx.data.isPrefixOf s.data

/-- Index of the first occurrence of a character in a list, offset by a base
index (helper for JS String.prototype.indexOf). -/
def charIdxFrom (c : Char) : List Char → Nat → Option Nat
  | [], _ => none
  | d :: rest, i => if d = c then some i else charIdxFrom c rest (i + 1)

/-- JS text.indexOf of a newline from absolute index i. -/
def findNl (cs : List Char) (i : Nat) : Option Nat :=
  charIdxFrom '\n' (cs.drop i) i

/-! ## Association lists: JS objects and Maps

JS objects and Maps preserve insertion order; assigning an existing key keeps
its position, a fresh key is appended. -/

/-- First-match lookup (JS property read / Map.get). -/
def lookupJ {α : Type} : List (String × α) → String → Option α
  | [], _ => none
  | (k2, v) :: rest, k => if k = k2 then some v else lookupJ rest k

/-- Key-presence test (JS `in` / Map.has). -/
def hasKeyJ {α : Type} (l : List (String × α)) (k : String) : Bool :=
  (lookupJ l k).isSome

/-- JS property assignment: overwrite in place, or append a fresh key. -/
def setJ {α : Type} : List (String × α) → String → α → List (String × α)
  | [], k, v => [(k, v)]
  | (k2, w) :: rest, k, v =>
    if k = k2 then (k2, v) :: rest else (k2, w) :: setJ rest k v

/-- Store a sequence of pairs with the overwriting set, in order. -/
def setFold {α : Type} (r : List (String × α)) (l : List (String × α)) :
    List (String × α) :=
  l.foldl (fun acc kv => setJ acc kv.1 kv.2) r

/-- First-some choice (the JS or-else on option results). -/
def orO {α : Type} : Option α → Option α → Option α
  | some x, _ => some x
  | none, b => b

/-! ## YAML values

js-yaml parse results restricted to the shapes the engine manipulates:
strings, numbers (carried as their literal text; the JS String coercion of a
number is modeled as that literal), booleans, null and nested maps.  The
mutual list type keeps all recursions structural. -/

mutual
inductive Yaml where
  | str (s : String)
  | num (lit : String)
  | bool (b : Bool)
  | null
  | obj (entries : YEntries)
inductive YEntries where
  | nil
  | cons (k : String) (v : Yaml) (rest : YEntries)
end

/-- Build YEntries from a plain list, for concrete instances. -/
def yentries : List (String × Yaml) → YEntries
  | [] => .nil
  | (k, v) :: rest => .cons k v (yentries rest)

/-- First-match lookup among entries (JS property read). -/
def lookupE : YEntries → String → Option Yaml
  | .nil, _ => none
  | .cons k2 v rest, k => if k = k2 then some v else lookupE rest k

/-- Key presence among entries (JS `in`). -/
def hasKeyE (l : YEntries) (k : String) : Bool := (lookupE l k).isSome

/-- JS property assignment on entries: overwrite in place or append. -/
def setE : YEntries → String → Yaml → YEntries
  | .nil, k, v => .cons k v .nil
  | .cons k2 w rest, k, v =>
    if k = k2 then .cons k2 v rest else .cons k2 w (setE rest k v)

/-- Fold JS assignments of src into dst (Object.assign). -/
def objAssignE : YEntries → YEntries → YEntries
  | dst, .nil => dst
  | dst, .cons k v rest => objAssignE (setE dst k v) rest

/-- Keys of an entry list, in order. -/
def keysE : YEntries → List String
  | .nil => []
  | .cons k _ rest => k :: keysE rest

/-- JS truthiness of a value: empty string, zero, false and null are falsy.
Numeric truthiness is only modeled for the zero literal; model instances
never use other falsy numeric roots. -/
def jsTruthy : Yaml → Bool
  | .str s => !(s = "")
  | .num lit => !(lit = "0")
  | .bool b => b
  | .null => false
  | .obj _ => true

def jsTruthyOpt : Option Yaml → Bool
  | some y => jsTruthy y
  | none => false

/-- The idiom yamlObj or-else empty-object: falsy parse results are replaced
by an empty object. -/
def orEmptyJs : Option Yaml → Yaml
  | some y => if jsTruthy y then y else .obj .nil
  | none => .obj .nil

/-- Own enumerable properties produced by a JS object spread: objects give
their entries, strings give one single-character entry per index, other
primitives give none. -/
def charEntries : List Char → Nat → YEntries
  | [], _ => .nil
  | c :: rest, i => .cons (toString i) (.str ⟨[c]⟩) (charEntries rest (i + 1))

def jsSpreadE : Yaml → YEntries
  | .obj l => l
  | .str s => charEntries s.data 0
  | _ => .nil

/-- The object literal spread of two values. -/
def spreadJs (t s : Yaml) : Yaml :=
  .obj (objAssignE (jsSpreadE t) (jsSpreadE s))

mutual
/-- collectYamlKeys of I18nManager: depth-first dotted keys of every
non-object leaf (null and boolean leaves included), prefix joined with a dot
when the prefix string is truthy. -/
def collectYamlKeys : Yaml → String → List String
  | .obj l, pfx => collectYamlEntries l pfx
  | _, _ => []
def collectYamlEntries : YEntries → String → List String
  | .nil, _ => []
  | .cons k v rest, pfx =>
    let fk := if pfx = "" then k else pfx ++ "." ++ k
    (match v with
     | .obj l2 => collectYamlEntries l2 fk
     | _ => [fk]) ++ collectYamlEntries rest pfx
end

/-- Dot-path descent of getYamlValue, after the key has been split: each
segment requires a truthy object containing the segment; the terminus is
returned only for string or number leaves, coerced to text. -/
def yamlGetParts : List String → Yaml → Option String
  | [], y =>
    match y with
    | .str s => some s
    | .num lit => some lit
    | _ => none
  | p :: rest, y =>
    match y with
    | .obj l =>
      match lookupE l p with
      | some v => yamlGetParts rest v
      | none => none
    | _ => none

/-- getYamlValue of I18nManager. -/
def getYamlValue (y : Yaml) (key : String) : Option String :=
  yamlGetParts (splitKey key) y

/-- One step of deepMerge over the entries of the source object: an
object-valued source entry whose key exists in an object target is enriched
in place with the recursive merge (the Object.assign line of the source); an
object-valued source entry against a primitive target raises the JS
TypeError of the `in` operator, modeled as an error. -/
def mergeE : Yaml → YEntries → Except Unit YEntries
  | _, .nil => .ok .nil
  | t, .cons k sv rest =>
    match sv with
    | .obj svl =>
      match t with
      | .obj tl =>
        match lookupE tl k with
        | some tv =>
          match mergeE tv svl with
          | .ok svl2 =>
            let m := spreadJs tv (.obj svl2)
            match mergeE t rest with
            | .ok rest2 => .ok (.cons k (.obj (objAssignE svl2 (jsSpreadE m))) rest2)
            | .error e => .error e
          | .error e => .error e
        | none =>
          match mergeE t rest with
          | .ok rest2 => .ok (.cons k sv rest2)
          | .error e => .error e
      | _ => .error ()
    | _ =>
      match mergeE t rest with
      | .ok rest2 => .ok (.cons k sv rest2)
      | .error e => .error e

/-- deepMerge of I18nManager: enrich object-valued source entries, then
return the spread of target and source (source wins key-wise). -/
def deepMerge (t s : Yaml) : Except Unit Yaml :=
  match s with
  | .obj sl =>
    match mergeE t sl with
    | .ok sl2 => .ok (spreadJs t (.obj sl2))
    | .error e => .error e
  | _ => .ok (spreadJs t s)

/-- The nested-set walk of the YAML branch of writeTranslation: descend the
dot segments, replacing any non-object intermediate by a fresh object, and
set the leaf to the string value.  A primitive at the point of an assignment
raises a strict-mode TypeError, modeled as none (the file is then left
unwritten). -/
def setDeepParts : Yaml → List String → String → Option Yaml
  | .obj l, [p], v => some (.obj (setE l p (.str v)))
  | _, [_], _ => none
  | .obj l, p :: rest, v =>
    let child :=
      match lookupE l p with
      | some (.obj cl) => Yaml.obj cl
      | _ => Yaml.obj .nil
    match setDeepParts child rest v with
    | some c2 => some (.obj (setE l p c2))
    | none => none
  | _, _ :: _, _ => none
  | _, [], _ => none

/-! ## The properties-reader model

The flat format is read through the properties-reader npm library.  Its
reader parses input line by line: lines are trimmed; a bracketed line free of
equal signs opens a section; otherwise a non-empty run of characters other
than hash and equal signs forms the key (an optional single equal sign is
skipped, the rest is the value); key and value are trimmed and stored with an
unconditionally overwriting set, so a later occurrence of a key replaces an
earlier value while the key keeps its first position.  Reading get performs
the documented coercion: a non-empty value accepted by the JS Number
conversion comes back as a number, the true and false literals come back as
booleans, and remaining strings have their backslash-n, backslash-r and
backslash-t escape pairs replaced. -/

/-- Does the trimmed line open a section: bracketed, non-empty inside, and
free of equal signs. -/
def isSectionL (t : List Char) : Bool :=
  match t with
  | '[' :: rest =>
    rest.getLast? = some ']' && !(rest.dropLast = []) && rest.dropLast.all (fun c => !(c = '='))
  | _ => false

/-- The section name captured by the section pattern. -/
def sectionNameL (t : List Char) : String := ⟨(t.drop 1).dropLast⟩

/-- Key/value capture of the property pattern on a trimmed, non-empty line:
the key is the maximal leading run free of hash and equal signs (empty run
means no match), an optional single equal sign is skipped, the remainder is
the raw value; both sides are trimmed. -/
def propKV (t : List Char) : Option (String × String) :=
  let kRun := t.takeWhile (fun c => !(c = '#' || c = '='))
  if kRun = [] then none
  else
    let rest := t.drop kRun.length
    let vRaw := match rest with
      | '=' :: r => r
      | r => r
    some (⟨trimJsL kRun⟩, ⟨trimJsL vRaw⟩)

/-- Parse the lines of one file, threading the current section (reset at the
start of each read); produces the key/value pairs in file order, keys
prefixed by a truthy section name and a dot. -/
def parsePropsAux : Option String → List String → List (String × String)
  | _, [] => []
  | sec, line :: rest =>
    let t := trimJsL line.data
    if t = [] then parsePropsAux sec rest
    else if isSectionL t then parsePropsAux (some (sectionNameL t)) rest
    else
      match propKV t with
      | none => parsePropsAux sec rest
      | some (k, v) =>
        let k2 := match sec with
          | some s => if s = "" then k else s ++ "." ++ k
          | none => k
        (k2, v) :: parsePropsAux sec rest

/-- The ordered key/value pairs parsed from a file text. -/
def parseProps (text : String) : List (String × String) :=
  parsePropsAux none (linesOf text)

/-- reader.append: read another text into an existing reader, each parsed
pair stored with the overwriting set. -/
def appendReader (r : List (String × String)) (text : String) : List (String × String) :=
  setFold r (parseProps text)

/-- A fresh reader over one file text. -/
def readerOf (text : String) : List (String × String) := appendReader [] text

/-- Decimal digits. -/
def isDigitJs (c : Char) : Bool := '0' ≤ c && c ≤ '9'

def isHexJs (c : Char) : Bool :=
  isDigitJs c || ('a' ≤ c && c ≤ 'f') || ('A' ≤ c && c ≤ 'F')

/-- Exponent suffix of a JS decimal literal: empty, or an e with optional
sign and a non-empty digit run. -/
def expOkJs (cs : List Char) : Bool :=
  match cs with
  | [] => true
  | e :: r =>
    if e = 'e' || e = 'E' then
      let r2 := match r with
        | '+' :: r2 => r2
        | '-' :: r2 => r2
        | r2 => r2
      !(r2 = []) && r2.all isDigitJs
    else false

/-- Unsigned JS decimal number body: digits with optional fraction, or a
leading dot with digits, each with an optional exponent. -/
def decNumJs (cs : List Char) : Bool :=
  let ip := cs.takeWhile isDigitJs
  let r1 := cs.drop ip.length
  match r1 with
  | [] => !(ip = [])
  | '.' :: r2 =>
    let fp := r2.takeWhile isDigitJs
    (!(ip = []) || !(fp = [])) && expOkJs (r2.drop fp.length)
  | _ => !(ip = []) && expOkJs r1

/-- Model of the JS test not-isNaN(s): the trimmed string is empty or is a
number literal accepted by the Number conversion (signed decimal or
Infinity, or unsigned hex, octal or binary). -/
def jsNumeric (s : String) : Bool :=
  let cs := trimJsL s.data
  match cs with
  | [] => true
  | '+' :: r => decNumJs r || r = "Infinity".data
  | '-' :: r => decNumJs r || r = "Infinity".data
  | '0' :: x :: r =>
    if x = 'x' || x = 'X' then !(r = []) && r.all isHexJs
    else if x = 'o' || x = 'O' then !(r = []) && r.all (fun c => '0' ≤ c && c ≤ '7')
    else if x = 'b' || x = 'B' then !(r = []) && r.all (fun c => c = '0' || c = '1')
    else decNumJs cs
  | _ => decNumJs cs || cs = "Infinity".data

/-- Replace backslash-n, backslash-r and backslash-t pairs left to right. -/
def replEsc : List Char → List Char
  | [] => []
  | '\\' :: c :: rest =>
    if c = 'n' then '\n' :: replEsc rest
    else if c = 'r' then '\r' :: replEsc rest
    else if c = 't' then '\t' :: replEsc rest
    else '\\' :: replEsc (c :: rest)
  | c :: rest => c :: replEsc rest

/-- A JS value returned by reader.get: a string, a number (carried as the
stored literal) or a boolean. -/
inductive JsVal where
  | str (s : String)
  | num (lit : String)
  | bool (b : Bool)
deriving DecidableEq, Repr

/-- The coercion of reader.get on a stored raw value. -/
def parseVal (raw : String) : JsVal :=
  if !(raw = "") && jsNumeric raw then .num raw
  else if raw = "true" then .bool true
  else if raw = "false" then .bool false
  else .str ⟨replEsc raw.data⟩

/-! ## Files, locale parsing automatically, and the reload pass -/

/-- A discovered translation file: a path (unique identifier, also carrying
the extension) and its content.  Flat files carry their raw text; tree files
carry the js-yaml parse result of their text (none for an empty document). -/
inductive FileContent where
  | props (text : String)
  | yamlFile (v : Option Yaml)

structure File where
  path : String
  content : FileContent

/-- path.basename: the part after the last slash. -/
def basenameOf (p : String) : String :=
  ⟨(splitOnChar '/' p.data).getLastD p.data⟩

/-- Strip a recognized translation extension, returning the stem. -/
def stemOf (cs : List Char) : Option (List Char) :=
  if ".properties".data.isSuffixOf cs then some (cs.take (cs.length - 11))
  else if ".yml".data.isSuffixOf cs then some (cs.take (cs.length - 4))
  else if ".yaml".data.isSuffixOf cs then some (cs.take (cs.length - 5))
  else none

/-- One attempt of the locale suffix pattern right after an underscore:
a language of the given length (two or three letters), optionally followed
by an underscore and a two-letter region, consuming the whole remainder. -/
def tryLR (llen : Nat) (withR : Bool) (r : List Char) : Option String :=
  let lang := r.take llen
  if lang.length = llen && lang.all isAlphaJs then
    let rest := r.drop llen
    if withR then
      match rest with
      | '_' :: r2 =>
        if (r2.take 2).length = 2 && (r2.take 2).all isAlphaJs && r2.drop 2 = [] then
          some ⟨lang ++ '_' :: r2.take 2⟩
        else none
      | _ => none
    else if rest = [] then some ⟨lang⟩ else none
  else none

/-- All alternatives at one underscore, in the backtracking order of the
greedy regex: three letters with region, three letters, two letters with
region, two letters. -/
def tryLocaleAt (r : List Char) : Option String :=
  match tryLR 3 true r with
  | some l => some l
  | none =>
    match tryLR 3 false r with
    | some l => some l
    | none =>
      match tryLR 2 true r with
      | some l => some l
      | none => tryLR 2 false r

/-- Leftmost-first scan of the stem for an underscore whose remainder is a
locale suffix. -/
def localeScan : List Char → Option String
  | [] => none
  | '_' :: r =>
    match tryLocaleAt r with
    | some l => some l
    | none => localeScan r
  | _ :: r => localeScan r

/-- Locale derivation of loadFile: a trailing underscore suffix of the base
name before a recognized extension gives the locale; a recognized extension
without a suffix gives the default locale; other files are not loaded. -/
def localeOf (path : String) : Option String :=
  match stemOf (basenameOf path).data with
  | some stem =>
    match localeScan stem with
    | some loc => some loc
    | none => some "default"
  | none => none

inductive FileType where
  | properties
  | yaml
deriving DecidableEq, Repr

/-- CachedProperties of I18nManager: the properties reader, the key-to-file
attribution map, the format discriminator and the parsed YAML tree. -/
structure CachedProperties where
  reader : List (String × String)
  keySource : List (String × String)
  type : FileType
  yamlObject : Option Yaml

/-- The per-locale cache object, insertion ordered. -/
abbrev Cache := List (String × CachedProperties)

structure LoadState where
  cache : Cache
  loadedFiles : List String

/-- Add each key to the attribution map unless already present (the
first-loaded-wins guard of loadFile). -/
def addSourceKeys (ks : List (String × String)) (keys : List String) (path : String) :
    List (String × String) :=
  keys.foldl (fun ks k => if hasKeyJ ks k then ks else ks ++ [(k, path)]) ks

/-- The collected keys of a raw parse result. -/
def collectKeysOpt : Option Yaml → List String
  | some y => collectYamlKeys y ""
  | none => []

/-- The keySource update of the YAML branch: guarded by the store being a
YAML store and the raw parse result being truthy, and collecting the keys of
the newly loaded tree (not of the merged tree). -/
def yamlKeySourceUpd (cache : Cache) (locale : String) (v : Option Yaml) (path : String) :
    Cache :=
  match lookupJ cache locale with
  | some c =>
    if c.type = .yaml && jsTruthyOpt v then
      setJ cache locale
        { c with keySource := addSourceKeys c.keySource (collectKeysOpt v) path }
    else cache
  | none => cache

/-- loadFile of reloadProperties: skip already-loaded paths and unrecognized
names; flat files create a store or append to a same-format store (a mixed
format is warned about and dropped) and then record first-wins attributions
for the keys of the newly parsed file; tree files create a store or deep
merge into a same-format store, a TypeError thrown by the merge being caught
(the file is skipped entirely), and then record first-wins attributions for
the collected keys of the newly parsed tree. -/
def loadFile (st : LoadState) (f : File) : LoadState :=
  if st.loadedFiles.contains f.path then st
  else
    match localeOf f.path with
    | none => st
    | some locale =>
      match f.content with
      | .props text =>
        let props := readerOf text
        let cache1 :=
          match lookupJ st.cache locale with
          | none => setJ st.cache locale ⟨props, [], .properties, none⟩
          | some c =>
            if c.type = .properties then
              setJ st.cache locale { c with reader := appendReader c.reader text }
            else st.cache
        let cache2 :=
          match lookupJ cache1 locale with
          | some c =>
            if c.type = .properties then
              setJ cache1 locale
                { c with keySource := addSourceKeys c.keySource (props.map Prod.fst) f.path }
            else cache1
          | none => cache1
        ⟨cache2, st.loadedFiles ++ [f.path]⟩
      | .yamlFile v =>
        match lookupJ st.cache locale with
        | none =>
          let cache1 := setJ st.cache locale ⟨[], [], .yaml, some (orEmptyJs v)⟩
          ⟨yamlKeySourceUpd cache1 locale v f.path, st.loadedFiles ++ [f.path]⟩
        | some c =>
          if c.type = .yaml then
            match deepMerge (c.yamlObject.getD (.obj .nil)) (orEmptyJs v) with
            | .ok m =>
              let cache1 := setJ st.cache locale { c with yamlObject := some m }
              ⟨yamlKeySourceUpd cache1 locale v f.path, st.loadedFiles ++ [f.path]⟩
            | .error _ => st
          else ⟨st.cache, st.loadedFiles ++ [f.path]⟩

/-- reloadProperties: fold the discovered files in discovery order into a
fresh cache and publish it. -/
def reload (files : List File) : Cache :=
  (files.foldl loadFile ⟨[], []⟩).cache

/-! ## The query surface -/

/-- getTranslation: flat stores answer through reader.get (with its
coercion); tree stores answer through the dot-path descent when the tree is
truthy, the result being a string. -/
def getTranslation (cache : Cache) (key locale : String) : Option JsVal :=
  match lookupJ cache locale with
  | none => none
  | some c =>
    match c.type with
    | .properties => (lookupJ c.reader key).map parseVal
    | .yaml =>
      match c.yamlObject with
      | some y => if jsTruthy y then (getYamlValue y key).map .str else none
      | none => none

/-- getSourceFile: the attribution map of the locale store. -/
def getSourceFile (cache : Cache) (key locale : String) : Option String :=
  match lookupJ cache locale with
  | none => none
  | some c => lookupJ c.keySource key

/-- The keys one store contributes to getAllKeys: reader keys for flat
stores, collected tree keys for truthy tree stores. -/
def storeKeysEnum (c : CachedProperties) : List String :=
  match c.type with
  | .properties => c.reader.map Prod.fst
  | .yaml =>
    match c.yamlObject with
    | some y => if jsTruthy y then collectYamlKeys y "" else []
    | none => []

/-- JS Set insertion, keeping the first occurrence of each element: the seen
accumulator holds the elements already emitted. -/
def dedupFirstAux (seen : List String) : List String → List String
  | [] => []
  | x :: xs =>
    if seen.contains x then dedupFirstAux seen xs
    else x :: dedupFirstAux (seen ++ [x]) xs

/-- JS Set construction over a list. -/
def dedupFirst (l : List String) : List String := dedupFirstAux [] l

/-- UTF-16 lexicographic comparison of the JS default sort, modeled on
character code points. -/
def charsLe : List Char → List Char → Bool
  | [], _ => true
  | _ :: _, [] => false
  | a :: as, b :: bs =>
    if a.toNat < b.toNat then true
    else if b.toNat < a.toNat then false
    else charsLe as bs

def strLe (s t : String) : Bool := charsLe s.data t.data

/-- Insert into a sorted list (one stable comparison sort standing for the
implementation-defined JS Array.sort, which is extensionally a stable sort by
the comparator). -/
def insertSorted (x : String) : List String → List String
  | [] => [x]
  | y :: ys => if strLe x y then x :: y :: ys else y :: insertSorted x ys

/-- Sort with the default JS comparator. -/
def sortJs (l : List String) : List String := l.foldr insertSorted []

/-- getAllKeys: every store enumerated into one JS Set, then sorted with the
default comparator. -/
def getAllKeys (cache : Cache) : List String :=
  sortJs (dedupFirst (cache.foldl (fun acc lc => acc ++ storeKeysEnum lc.2) []))

/-! ## The write-back engine

The flat pattern is caret, whitespace run, the escaped key, whitespace run,
equal sign, captured value to the line end, in multiline mode.  Because the
escaping makes the key a literal and the modeled keys contain no whitespace,
the greedy whitespace runs are exactly the maximal runs (which may cross
newlines), and the match is searched at ascending positions, succeeding only
at line starts. -/

/-- Length of the leading JS whitespace run. -/
def wsCount (cs : List Char) : Nat := (cs.takeWhile jsWs).length

/-- Attempt the flat key pattern at absolute position p; on success return
the start of the captured value and the end of the whole match (the captured
value runs to the next newline). -/
def matchPropAt (cs key : List Char) (p : Nat) : Option (Nat × Nat) :=
  let s := cs.drop p
  let w1 := wsCount s
  let s1 := s.drop w1
  if key.isPrefixOf s1 then
    let s2 := s1.drop key.length
    let w2 := wsCount s2
    match s2.drop w2 with
    | '=' :: _ =>
      let valStart := p + w1 + key.length + w2 + 1
      let vlen := ((cs.drop valStart).takeWhile (fun c => !(c = '\n'))).length
      some (valStart, valStart + vlen)
    | _ => none
  else none

/-- Scan ascending positions, attempting the pattern at line starts only;
returns match start, value start and match end of the first match. -/
def findPropAux (cs key : List Char) : List Char → Nat → Bool → Option (Nat × Nat × Nat)
  | [], _, _ => none
  | c :: rest, p, atStart =>
    if atStart then
      match matchPropAt cs key p with
      | some (vs, fe) => some (p, vs, fe)
      | none => findPropAux cs key rest (p + 1) (c = '\n')
    else findPropAux cs key rest (p + 1) (c = '\n')

/-- First match of the flat key pattern in a text. -/
def findPropMatch (cs key : List Char) : Option (Nat × Nat × Nat) :=
  findPropAux cs key cs 0 true

/-- The flat branch of writeTranslation: replace the captured value span of
the first match (the lastIndexOf computation of the source always lands on
that span because the captured value is a suffix of the whole match); with no
match, insert a newline and the new entry at the document end (the insertion
position one line past the last is clamped to the document end). -/
def writePropsText (text key value : String) : String :=
  match findPropMatch text.data key.data with
  | some (_, vs, fe) => ⟨(text.data.take vs) ++ value.data ++ text.data.drop fe⟩
  | none => text ++ "\n" ++ key ++ "=" ++ value

/-- Offset just past the line break of the line containing pos (the
rangeIncludingLineBreak end); the document end when that line is last. -/
def lineEndIncl (cs : List Char) (pos : Nat) : Nat :=
  match findNl cs pos with
  | some j => j + 1
  | none => cs.length

/-- The continuation loop of the flat deletion: while the slice from the
match start ends with a backslash, consume one further line and stop after it
unless it also ends (after trimming) with a backslash; otherwise extend the
end to the line break of the line containing the match start.  The fuel is
structural bookkeeping only: every continuing iteration advances currentEnd
by at least two characters, so fuel two beyond the text length is never
exhausted. -/
def delPropsEnd (cs : List Char) (start endOff : Nat) : Nat → Nat → Nat
  | 0, _ => endOff
  | fuel + 1, currentEnd =>
    let sub := (cs.take currentEnd).drop start
    if sub.getLast? = some '\\' then
      match findNl cs currentEnd with
      | some nn =>
        let ce1 := nn + 1
        let lineEnd := findNl cs ce1
        let lineContent :=
          match lineEnd with
          | some le => (cs.take le).drop ce1
          | none => cs.drop ce1
        let ce2 :=
          match lineEnd with
          | some le => le + 1
          | none => cs.length
        if (trimEndL lineContent).getLast? = some '\\' then
          delPropsEnd cs start endOff fuel ce2
        else ce2
      | none => cs.length
    else
      let le := lineEndIncl cs start
      if endOff < le then le else endOff

/-- The flat branch of deleteKeyFromFile: no match leaves the file
untouched; a match deletes from the match start to the end computed by the
continuation loop. -/
def deletePropsText (text key : String) : String :=
  match findPropMatch text.data key.data with
  | none => text
  | some (start, _, fe) =>
    let fin := delPropsEnd text.data start fe (text.data.length + 2) fe
    ⟨(text.data.take start) ++ text.data.drop fin⟩

/-! ## The YAML line scanner of deleteKeyFromFile -/

/-- A line whose JS trim is empty (the falsy-trim test of the scanner). -/
def isBlankLine (l : String) : Bool := trimJs l = ""

/-- Scan the lines from absolute index i for the first non-blank,
non-comment line at exactly the expected indent whose trimmed text starts
with the segment and a colon; a shallower line aborts the scan. -/
def scanSeg (p : String) (indent : Nat) : List String → Nat → Option Nat
  | [], _ => none
  | line :: rest, i =>
    let t := trimJs line
    if isBlankLine line || startsWithJs t "#" then scanSeg p indent rest (i + 1)
    else
      let li := indentOf line
      if li < indent then none
      else if indent < li then scanSeg p indent rest (i + 1)
      else if startsWithJs t (p ++ ":") then some i
      else scanSeg p indent rest (i + 1)

/-- The child-indent probe: the first non-blank, non-comment line decides;
deeper gives its indent, at or above gives nothing. -/
def scanChild (indent : Nat) : List String → Option Nat
  | [] => none
  | line :: rest =>
    let t := trimJs line
    if isBlankLine line || startsWithJs t "#" then scanChild indent rest
    else
      let li := indentOf line
      if indent < li then some li else none

/-- findKeyLine of the YAML deletion: walk the key segments, starting each
scan where the previous segment matched; committing to the first matching
line of a segment (no backtracking), descending at the probed child indent,
and failing if a segment cannot be located. -/
def findKeyLine (lines : List String) : List String → Nat → Nat → Option Nat
  | [], _, _ => none
  | p :: rest, i, indent =>
    match scanSeg p indent (lines.drop i) i with
    | none => none
    | some j =>
      if rest = [] then some j
      else
        match scanChild indent (lines.drop (j + 1)) with
        | some ni => findKeyLine lines rest (j + 1) ni
        | none => none

/-- The descendant-block scan: from the line after the key, blank lines are
skipped, strictly deeper lines extend the block end, and the first non-blank
line at or above the key indent stops the scan. -/
def blockScan (d : Nat) : List String → Nat → Nat → Nat
  | [], _, acc => acc
  | line :: rest, j, acc =>
    if isBlankLine line then blockScan d rest (j + 1) acc
    else if d < indentOf line then blockScan d rest (j + 1) j
    else acc

/-- Apply the line-range deletion from the start of line i to the start of
line e+1; when e is the last line the end position is clamped to the
document end, so the line break before line i survives. -/
def applyLineDelete (lines : List String) (i e : Nat) : String :=
  if e + 1 < lines.length then
    String.intercalate "\n" (lines.take i ++ lines.drop (e + 1))
  else if i = 0 then ""
  else String.intercalate "\n" (lines.take i) ++ "\n"

/-- The YAML branch of deleteKeyFromFile: locate the key line, extend over
its descendant block, and delete those whole lines; an unlocated key leaves
the file untouched. -/
def deleteYamlText (text key : String) : String :=
  let lines := linesOf text
  match findKeyLine lines (splitKey key) 0 0 with
  | none => text
  | some i =>
    let d := indentOf (lines.getD i "")
    let e := blockScan d (lines.drop (i + 1)) (i + 1) i
    applyLineDelete lines i e

/-! ## File-system level operations -/

/-- The target-file resolution of writeTranslation: the owning file of the
key, else the first attributed file of the locale store; with neither, the
interactive creation flow runs (not modeled: the write is then a no-op, as
when the user declines). -/
def resolveWriteUri (cache : Cache) (key locale : String) : Option String :=
  match getSourceFile cache key locale with
  | some u => some u
  | none =>
    match lookupJ cache locale with
    | some c =>
      match c.keySource with
      | (_, u) :: _ => some u
      | [] => none
    | none => none

/-- Apply the write to one file content: flat files get the in-place value
replacement or the appended entry; tree files are re-parsed (with the falsy
fallback to an empty object), the nested set applied and the tree re-dumped;
a TypeError of the nested set aborts the write leaving the file unchanged. -/
def writeFileContent (fc : FileContent) (key value : String) : FileContent :=
  match fc with
  | .props text => .props (writePropsText text key value)
  | .yamlFile v =>
    match setDeepParts (orEmptyJs v) (splitKey key) value with
    | some y2 => .yamlFile (some y2)
    | none => .yamlFile v

/-- writeTranslation at the file-system level. -/
def writeTranslation (cache : Cache) (fs : List File) (key locale value : String) :
    List File :=
  match resolveWriteUri cache key locale with
  | none => fs
  | some uri =>
    fs.map (fun f => if f.path = uri then ⟨f.path, writeFileContent f.content key value⟩ else f)

/-- deleteKeyFromFile on the file system: flat files get the text deletion.
The YAML branch of the source edits the raw file text (modeled standalone by
deleteYamlText); the structured tree content of this file model does not
carry that text, so tree files are left unchanged here and the deleteKey
theorems quantify over flat files only. -/
def deleteKeyFromFileFS (fs : List File) (uri key : String) : List File :=
  fs.map (fun f =>
    if f.path = uri then
      ⟨f.path,
        match f.content with
        | .props t => .props (deletePropsText t key)
        | .yamlFile v => .yamlFile v⟩
    else f)

/-- deleteKey of I18nManager: for every locale of the published cache whose
store attributes the key to a file, remove the key from that file; the tasks
are fanned out and awaited together, and since every file is owned by a
single locale the sequential fold is equivalent.  No reload of the cache
follows. -/
def deleteKeyOp (cache : Cache) (fs : List File) (key : String) : List File :=
  cache.foldl
    (fun fs2 lc =>
      match lookupJ lc.2.keySource key with
      | some uri => deleteKeyFromFileFS fs2 uri key
      | none => fs2)
    fs

/-! ## Specification-side characterizations and concrete instances -/

/-- The lines a descendant block may span: blank lines or lines strictly
deeper than the key line (claim-side characterization of the block). -/
def deeperOrBlank (d : Nat) (l : String) : Bool :=
  isBlankLine l || d < indentOf l

/-- Trim trailing blank lines (claim-side characterization: the deleted
block ends at its last non-blank line). -/
def rstripBlank : List String → List String
  | [] => []
  | x :: xs =>
    let r := rstripBlank xs
    if r = [] then (if isBlankLine x then [] else [x]) else x :: r

/-- The indent of the located key line (claim-side abbreviation). -/
def keyIndent (text : String) (i : Nat) : Nat := indentOf ((linesOf text).getD i "")

/-- The candidate block lines after the key line: the longest run of blank
or strictly deeper lines (claim-side characterization). -/
def blockLines (text : String) (i : Nat) : List String :=
  ((linesOf text).drop (i + 1)).takeWhile (deeperOrBlank (keyIndent text i))

/-- The number of lines deleted after the key line: the candidate block with
its trailing blank lines stripped (claim-side characterization). -/
def blockLen (text : String) (i : Nat) : Nat := (rstripBlank (blockLines text i)).length

/-- The lock-step invariant restricted to flat stores: in every store of
flat type, a key has a reader value exactly when it has a source
attribution. -/
def flatLockStep (cache : Cache) : Prop :=
  ∀ loc c, lookupJ cache loc = some c → c.type = .properties →
    ∀ k, (lookupJ c.reader k).isSome ↔ (lookupJ c.keySource k).isSome

/-- Is a value a nested object. -/
def isObjY : Yaml → Bool
  | .obj _ => true
  | _ => false

/-- Key lookup on an object value (none on a non-object). -/
def yLookup : Yaml → String → Option Yaml
  | .obj l, k => lookupE l k
  | _, _ => none

/-- Witness pair for the merge policy: the earlier file holds a nested
object at a and a scalar at b, the later file holds a nested object at a and
a scalar at c. -/
def exC6target : YEntries := yentries [("a", .obj (yentries [("x", .str "1")])), ("b", .str "t")]

def exC6source : YEntries := yentries [("a", .obj (yentries [("y", .str "2")])), ("c", .str "s")]

/-- The value deepMerge produces on the witness pair. -/
def exC6merged : Yaml :=
  .obj (yentries
    [("a", .obj (yentries [("y", .str "2"), ("x", .str "1")])),
     ("b", .str "t"), ("c", .str "s")])

/-- Two flat files for locale en defining the same key k1 with different
values, in discovery order (the scenario of the first-loaded-wins claim). -/
def exC1fs : List File :=
  [⟨"messages_en.properties", .props "k1=v1\n"⟩,
   ⟨"other_en.properties", .props "k1=v2\n"⟩]

/-- One tree file for the default locale whose only leaf is a boolean. -/
def exBoolLeafFs : List File :=
  [⟨"messages.yml", .yamlFile (some (.obj (yentries [("a", .bool true)])))⟩]

/-- The store built by reloading the boolean-leaf file. -/
def exBoolLeafStore : CachedProperties :=
  ⟨[], [("a", "messages.yml")], .yaml, some (.obj (.cons "a" (.bool true) .nil))⟩

/-- One flat file for locale en in which the key k occurs twice. -/
def exC3fs : List File :=
  [⟨"messages_en.properties", .props "k=a\nk=b\n"⟩]

/-- Two tree files for locale en: the first holds a nested object at key a,
the second holds a scalar at key a. -/
def exC6fs : List File :=
  [⟨"messages_en.yml", .yamlFile (some (.obj (yentries [("a", .obj (yentries [("x", .str "1")]))])))⟩,
   ⟨"other_en.yml", .yamlFile (some (.obj (yentries [("a", .str "s")])))⟩]

/-- Two flat files of two locales, both owning the key k. -/
def exC9fs : List File :=
  [⟨"messages_en.properties", .props "k=1\nother=2\n"⟩,
   ⟨"messages_ko.properties", .props "k=3\n"⟩]

/-- The file system after deleteKey of k on the index of exC9fs. -/
def exC9fs2 : List File := deleteKeyOp (reload exC9fs) exC9fs "k"

/-- Witness instance of the flat lock-step statement: two flat files and one
tree file, the flat store of locale en being the one inspected. -/
def exC2wfs : List File :=
  [⟨"messages_en.properties", .props "a=1\nb=2\n"⟩,
   ⟨"other_en.properties", .props "c=3\n"⟩,
   ⟨"messages_ko.yml", .yamlFile (some (.obj (yentries [("d", .str "x")])))⟩]

/-- The flat store of locale en after reloading exC2wfs. -/
def exC2wStore : CachedProperties :=
  ⟨[("a", "1"), ("b", "2"), ("c", "3")],
   [("a", "messages_en.properties"), ("b", "messages_en.properties"),
    ("c", "other_en.properties")],
   .properties, none⟩

/-! ## Basic lemmas about the association-list operations -/

theorem lookupJ_nil {α : Type} (k : String) : lookupJ ([] : List (String × α)) k = none := rfl

theorem lookupJ_cons {α : Type} (k2 : String) (v : α) (rest : List (String × α)) (k : String) :
    lookupJ ((k2, v) :: rest) k = if k = k2 then some v else lookupJ rest k := rfl

theorem lookupJ_append {α : Type} (l1 l2 : List (String × α)) (k : String) :
    lookupJ (l1 ++ l2) k = orO (lookupJ l1 k) (lookupJ l2 k) := by
  induction l1 with
  | nil => rfl
  | cons kv rest ih =>
    obtain ⟨k2, v⟩ := kv
    by_cases h : k = k2 <;> simp [lookupJ_cons, h, orO, ih]

theorem lookupJ_setJ {α : Type} (l : List (String × α)) (k2 : String) (v : α) (k : String) :
    lookupJ (setJ l k2 v) k = if k = k2 then some v else lookupJ l k := by
  induction l with
  | nil => rfl
  | cons kv rest ih =>
    obtain ⟨k3, w⟩ := kv
    show lookupJ (if k2 = k3 then (k3, v) :: rest else (k3, w) :: setJ rest k2 v) k = _
    by_cases h3 : k2 = k3
    · subst h3
      by_cases h : k = k2 <;> simp [lookupJ_cons, h]
    · rw [if_neg h3]
      by_cases h : k = k3
      · subst h
        rw [lookupJ_cons, if_pos rfl, if_neg (fun hh => h3 hh.symm), lookupJ_cons, if_pos rfl]
      · simp [lookupJ_cons, h, ih]

theorem lookupJ_isSome_iff_mem {α : Type} (l : List (String × α)) (k : String) :
    (lookupJ l k).isSome ↔ k ∈ l.map Prod.fst := by
  induction l with
  | nil => simp [lookupJ_nil]
  | cons kv rest ih =>
    obtain ⟨k2, v⟩ := kv
    by_cases h : k = k2 <;> simp [lookupJ_cons, h, ih]

theorem lookupJ_setFold {α : Type} (l : List (String × α)) (r : List (String × α)) (k : String) :
    lookupJ (setFold r l) k = orO (lookupJ l.reverse k) (lookupJ r k) := by
  induction l generalizing r with
  | nil => simp [setFold, lookupJ_nil, orO]
  | cons kv rest ih =>
    obtain ⟨k1, v1⟩ := kv
    show lookupJ (setFold (setJ r k1 v1) rest) k = _
    rw [ih]
    simp only [List.reverse_cons, lookupJ_append, lookupJ_setJ]
    cases hres : lookupJ rest.reverse k with
    | some w => simp [orO]
    | none =>
      by_cases h : k = k1 <;> simp [orO, lookupJ_cons, lookupJ_nil, h]

theorem setFold_isSome {α : Type} (l r : List (String × α)) (k : String) :
    (lookupJ (setFold r l) k).isSome ↔ (lookupJ r k).isSome ∨ k ∈ l.map Prod.fst := by
  rw [lookupJ_setFold]
  have hm : k ∈ l.map Prod.fst ↔ (lookupJ l.reverse k).isSome := by
    rw [lookupJ_isSome_iff_mem, List.map_reverse, List.mem_reverse]
  rw [hm]
  cases lookupJ l.reverse k <;> cases lookupJ r k <;> simp [orO]

theorem lookupJ_addSourceKeys_of_isSome (ks : List (String × String)) (keys : List String)
    (p k : String) (h : (lookupJ ks k).isSome) :
    lookupJ (addSourceKeys ks keys p) k = lookupJ ks k := by
  induction keys generalizing ks with
  | nil => rfl
  | cons k1 rest ih =>
    show lookupJ (addSourceKeys (if hasKeyJ ks k1 then ks else ks ++ [(k1, p)]) rest p) k = _
    by_cases h1 : hasKeyJ ks k1
    · rw [if_pos h1, ih ks h]
    · rw [if_neg h1]
      have hk : lookupJ (ks ++ [(k1, p)]) k = lookupJ ks k := by
        rw [lookupJ_append]
        cases hres : lookupJ ks k with
        | some w => simp [orO]
        | none => rw [hres] at h; simp at h
      rw [ih _ (by rw [hk]; exact h), hk]

theorem lookupJ_addSourceKeys_of_mem (ks : List (String × String)) (keys : List String)
    (p k : String) (h : (lookupJ ks k).isSome = false) (hm : k ∈ keys) :
    lookupJ (addSourceKeys ks keys p) k = some p := by
  induction keys generalizing ks with
  | nil => cases hm
  | cons k1 rest ih =>
    show lookupJ (addSourceKeys (if hasKeyJ ks k1 then ks else ks ++ [(k1, p)]) rest p) k = _
    by_cases hk1 : k = k1
    · subst hk1
      have hnk : ¬ hasKeyJ ks k := by
        intro hh
        rw [hasKeyJ] at hh
        rw [hh] at h
        cases h
      rw [if_neg hnk]
      have hsome : lookupJ (ks ++ [(k, p)]) k = some p := by
        rw [lookupJ_append]
        cases hres : lookupJ ks k with
        | some w => rw [hres] at h; simp at h
        | none => simp [orO, lookupJ_cons]
      rw [lookupJ_addSourceKeys_of_isSome _ _ _ _ (by rw [hsome]; rfl), hsome]
    · have hm2 : k ∈ rest := by
        cases hm with
        | head => exact absurd rfl hk1
        | tail _ hh => exact hh
      by_cases hh : hasKeyJ ks k1
      · rw [if_pos hh]
        exact ih ks h hm2
      · rw [if_neg hh]
        refine ih _ ?_ hm2
        rw [lookupJ_append]
        cases hres : lookupJ ks k with
        | some w => rw [hres] at h; cases h
        | none => simp [orO, lookupJ_cons, lookupJ_nil, hk1]

theorem addSourceKeys_isSome (ks : List (String × String)) (keys : List String)
    (p k : String) :
    (lookupJ (addSourceKeys ks keys p) k).isSome ↔ (lookupJ ks k).isSome ∨ k ∈ keys := by
  induction keys generalizing ks with
  | nil => simp [addSourceKeys]
  | cons k1 rest ih =>
    show (lookupJ (addSourceKeys (if hasKeyJ ks k1 then ks else ks ++ [(k1, p)]) rest p) k).isSome ↔ _
    by_cases hh : hasKeyJ ks k1
    · rw [if_pos hh, ih]
      constructor
      · rintro (h | h)
        · exact Or.inl h
        · exact Or.inr (List.mem_cons_of_mem _ h)
      · rintro (h | h)
        · exact Or.inl h
        · cases h with
          | head =>
            exact Or.inl hh
          | tail _ h2 => exact Or.inr h2
    · rw [if_neg hh, ih, lookupJ_append]
      by_cases hk1 : k = k1
      · subst hk1
        cases hres : lookupJ ks k with
        | some w => simp [orO]
        | none => simp [orO, lookupJ_cons]
      · cases hres : lookupJ ks k with
        | some w => simp [orO]
        | none => simp [orO, lookupJ_cons, lookupJ_nil, hk1]

/-! ## Closed theorems on the concrete instances -/

/-- C1, counterexample: with two flat files of locale en both defining k1,
loaded in discovery order, the published value of k1 is the later file's v2
(the append of the properties reader overwrites), not the first file's v1 as
claimed, while the source attribution is the first file. -/
theorem c1_counterexample :
    getTranslation (reload exC1fs) "k1" "en" = some (.str "v2")
    ∧ ¬ getTranslation (reload exC1fs) "k1" "en" = some (.str "v1")
    ∧ getSourceFile (reload exC1fs) "k1" "en" = some "messages_en.properties" :=
  ⟨rfl, by decide, rfl⟩

/-- C2, counterexample: a tree file whose only leaf is a boolean puts the
key into the keySource map while getTranslation has no value for it, so the
two maps of one store are not in lock-step. -/
theorem c2_counterexample :
    getSourceFile (reload exBoolLeafFs) "a" "default" = some "messages.yml"
    ∧ getTranslation (reload exBoolLeafFs) "a" "default" = none :=
  ⟨rfl, rfl⟩

/-- C3, counterexample: in a flat file containing the key twice, the write
edits the first matching line but the reader keeps the last parsed
occurrence, so the round trip returns the untouched later value b instead of
the written value. -/
theorem c3_counterexample :
    getTranslation (reload (writeTranslation (reload exC3fs) exC3fs "k" "en" "new")) "k" "en"
      = some (.str "b")
    ∧ ¬ getTranslation (reload (writeTranslation (reload exC3fs) exC3fs "k" "en" "new")) "k" "en"
      = some (.str "new") :=
  ⟨rfl, by decide⟩

/-- C4, evaluation at the failing input: with two continuation lines the
deletion removes only the first physical line (after one consumed line the
slice ends in a newline, so the backslash recheck fails), leaving the
continuations orphaned; with a single continuation line (the example of the
claim) the whole logical entry is removed. -/
theorem c4_code_bug_eval :
    deletePropsText "b=1\\\nc\\\nd\ne=5\n" "b" = "c\\\nd\ne=5\n"
    ∧ deletePropsText "a=1\nb=2\\\n3" "b" = "a=1\n" :=
  ⟨rfl, rfl⟩

/-- C5, counterexample: deleting the key user whose block contains an
interior blank line also deletes that blank line, although its indent is not
strictly greater than the key indent, so not every other line is left
byte-identical (the claimed result would keep the blank line). -/
theorem c5_counterexample :
    deleteYamlText "user:\n  a: 1\n\n  b: 2\nother: C" "user" = "other: C"
    ∧ ¬ deleteYamlText "user:\n  a: 1\n\n  b: 2\nother: C" "user" = "\nother: C" :=
  ⟨rfl, by decide⟩

/-- C6, counterexample: merging a later tree file holding a scalar at key a
into an earlier file holding a nested object at key a blindly replaces the
nested object: the scalar wins and the nested leaf a.x loses its value. -/
theorem c6_counterexample :
    getTranslation (reload exC6fs) "a" "en" = some (.str "s")
    ∧ getTranslation (reload exC6fs) "a.x" "en" = none
    ∧ getSourceFile (reload exC6fs) "a.x" "en" = some "messages_en.yml" :=
  ⟨rfl, rfl, rfl⟩

/-- C7, counterexample: appending a missing key to a file that already ends
with a newline still inserts a preceding newline at the document end,
producing a blank line before the new entry, contrary to the claim that no
extra blank line is introduced. -/
theorem c7_counterexample :
    writePropsText "a=1\n" "b" "2" = "a=1\n\nb=2"
    ∧ ¬ writePropsText "a=1\n" "b" "2" = "a=1\nb=2" :=
  ⟨rfl, by decide⟩

/-- C9, evaluation at the failing input: deleteKey removes the key from the
owning file of each of the two locales, but the published cache is not
reloaded: the old index still answers with the deleted value, while a reload
of the edited files would answer with none. -/
theorem c9_code_bug_eval :
    deleteKeyOp (reload exC9fs) exC9fs "k"
      = [⟨"messages_en.properties", .props "other=2\n"⟩,
         ⟨"messages_ko.properties", .props ""⟩]
    ∧ getTranslation (reload exC9fs) "k" "en" = some (.num "1")
    ∧ getTranslation (reload (deleteKeyOp (reload exC9fs) exC9fs "k")) "k" "en" = none :=
  ⟨rfl, rfl, rfl⟩

/-- C10: the index loaded from a tree file whose leaf is a boolean lists the
dotted key in getAllKeys (key collection takes every non-object leaf) while
getTranslation returns absent for it in every locale (lookups return only
string or number leaves). -/
theorem c10_unretrievable_key :
    "a" ∈ getAllKeys (reload exBoolLeafFs)
    ∧ ∀ l, getTranslation (reload exBoolLeafFs) "a" l = none := by
  constructor
  · decide
  · intro l
    have hre : reload exBoolLeafFs = [("default", exBoolLeafStore)] := rfl
    rw [hre]
    by_cases hl : l = "default"
    · subst hl
      decide
    · simp [getTranslation, lookupJ_cons, lookupJ_nil, hl]

/-! ## C7: the flat append -/

/-- C7, amended: when the flat key pattern has no match, the write appends a
newline and the new entry at the document end unconditionally, regardless of
whether the file already ends with a newline. -/
theorem c7_amended_append (text key value : String)
    (h : findPropMatch text.data key.data = none) :
    writePropsText text key value = text ++ "\n" ++ key ++ "=" ++ value := by
  unfold writePropsText
  rw [h]

/-- C7, witness: the amended append statement at a concrete file without a
trailing newline. -/
theorem c7_amended_witness :
    findPropMatch "a=1".data "b".data = none
    ∧ writePropsText "a=1" "b" "2" = "a=1" ++ "\n" ++ "b" ++ "=" ++ "2" :=
  ⟨by decide, c7_amended_append "a=1" "b" "2" (by decide)⟩

/-! ## C3: the tree round trip -/

theorem splitOnChar_ne_nil (sep : Char) (cs : List Char) : ¬ splitOnChar sep cs = [] := by
  cases cs with
  | nil => simp [splitOnChar]
  | cons c rest =>
    unfold splitOnChar
    by_cases h : c = sep
    · simp [h]
    · simp only [if_neg h]
      cases splitOnChar sep rest <;> simp

theorem splitKey_ne_nil (key : String) : ¬ splitKey key = [] := by
  unfold splitKey
  intro h
  exact splitOnChar_ne_nil '.' key.data (List.map_eq_nil_iff.mp h)

theorem lookupE_setE : ∀ (l : YEntries) (p : String) (v : Yaml),
    lookupE (setE l p v) p = some v
  | .nil, p, v => by simp [setE, lookupE]
  | .cons k2 w rest, p, v => by
    unfold setE
    by_cases h : p = k2
    · simp [h, lookupE]
    · simp [h, lookupE, lookupE_setE rest p v]

/-- The nested set on an object root never raises and produces an object. -/
theorem setDeepParts_obj_some (parts : List String) (hne : ¬ parts = []) (l : YEntries)
    (v : String) : ∃ l2, setDeepParts (.obj l) parts v = some (.obj l2) := by
  induction parts generalizing l with
  | nil => exact absurd rfl hne
  | cons p rest ih =>
    cases rest with
    | nil => exact ⟨setE l p (.str v), rfl⟩
    | cons q rest2 =>
      have hne2 : ¬ (q :: rest2) = ([] : List String) := by simp
      cases hlk : lookupE l p with
      | none =>
        obtain ⟨l2, h2⟩ := ih hne2 .nil
        refine ⟨setE l p (.obj l2), ?_⟩
        show (match setDeepParts (match lookupE l p with
                | some (.obj cl) => Yaml.obj cl
                | _ => Yaml.obj .nil) (q :: rest2) v with
              | some c2 => some (Yaml.obj (setE l p c2))
              | none => none) = _
        rw [hlk]
        show (match setDeepParts (.obj .nil) (q :: rest2) v with
              | some c2 => some (Yaml.obj (setE l p c2))
              | none => none) = _
        rw [h2]
      | some c =>
        cases c with
        | obj cl =>
          obtain ⟨l2, h2⟩ := ih hne2 cl
          refine ⟨setE l p (.obj l2), ?_⟩
          show (match setDeepParts (match lookupE l p with
                  | some (.obj cl) => Yaml.obj cl
                  | _ => Yaml.obj .nil) (q :: rest2) v with
                | some c2 => some (Yaml.obj (setE l p c2))
                | none => none) = _
          rw [hlk]
          show (match setDeepParts (.obj cl) (q :: rest2) v with
                | some c2 => some (Yaml.obj (setE l p c2))
                | none => none) = _
          rw [h2]
        | str s =>
          obtain ⟨l2, h2⟩ := ih hne2 .nil
          refine ⟨setE l p (.obj l2), ?_⟩
          show (match setDeepParts (match lookupE l p with
                  | some (.obj cl) => Yaml.obj cl
                  | _ => Yaml.obj .nil) (q :: rest2) v with
                | some c2 => some (Yaml.obj (setE l p c2))
                | none => none) = _
          rw [hlk]
          show (match setDeepParts (.obj .nil) (q :: rest2) v with
                | some c2 => some (Yaml.obj (setE l p c2))
                | none => none) = _
          rw [h2]
        | num lit =>
          obtain ⟨l2, h2⟩ := ih hne2 .nil
          refine ⟨setE l p (.obj l2), ?_⟩
          show (match setDeepParts (match lookupE l p with
                  | some (.obj cl) => Yaml.obj cl
                  | _ => Yaml.obj .nil) (q :: rest2) v with
                | some c2 => some (Yaml.obj (setE l p c2))
                | none => none) = _
          rw [hlk]
          show (match setDeepParts (.obj .nil) (q :: rest2) v with
                | some c2 => some (Yaml.obj (setE l p c2))
                | none => none) = _
          rw [h2]
        | bool b =>
          obtain ⟨l2, h2⟩ := ih hne2 .nil
          refine ⟨setE l p (.obj l2), ?_⟩
          show (match setDeepParts (match lookupE l p with
                  | some (.obj cl) => Yaml.obj cl
                  | _ => Yaml.obj .nil) (q :: rest2) v with
                | some c2 => some (Yaml.obj (setE l p c2))
                | none => none) = _
          rw [hlk]
          show (match setDeepParts (.obj .nil) (q :: rest2) v with
                | some c2 => some (Yaml.obj (setE l p c2))
                | none => none) = _
          rw [h2]
        | null =>
          obtain ⟨l2, h2⟩ := ih hne2 .nil
          refine ⟨setE l p (.obj l2), ?_⟩
          show (match setDeepParts (match lookupE l p with
                  | some (.obj cl) => Yaml.obj cl
                  | _ => Yaml.obj .nil) (q :: rest2) v with
                | some c2 => some (Yaml.obj (setE l p c2))
                | none => none) = _
          rw [hlk]
          show (match setDeepParts (.obj .nil) (q :: rest2) v with
                | some c2 => some (Yaml.obj (setE l p c2))
                | none => none) = _
          rw [h2]

/-- After the nested set succeeds, the descent at the same path reads the
written string back. -/
theorem yamlGetParts_setDeepParts (parts : List String) (y y2 : Yaml) (v : String)
    (h : setDeepParts y parts v = some y2) : yamlGetParts parts y2 = some v := by
  induction parts generalizing y y2 with
  | nil =>
    exfalso
    cases y <;> simp [setDeepParts] at h
  | cons p rest ih =>
    cases rest with
    | nil =>
      cases y with
      | obj l =>
        have h2 : y2 = .obj (setE l p (.str v)) := by
          have := h
          simp [setDeepParts] at this
          exact this.symm
        subst h2
        simp [yamlGetParts, lookupE_setE]
      | str s => simp [setDeepParts] at h
      | num lit => simp [setDeepParts] at h
      | bool b => simp [setDeepParts] at h
      | null => simp [setDeepParts] at h
    | cons q rest2 =>
      cases y with
      | obj l =>
        have hm : (match setDeepParts (match lookupE l p with
                    | some (.obj cl) => Yaml.obj cl
                    | _ => Yaml.obj .nil) (q :: rest2) v with
                  | some c2 => some (Yaml.obj (setE l p c2))
                  | none => none) = some y2 := h
        cases hset : setDeepParts (match lookupE l p with
            | some (.obj cl) => Yaml.obj cl
            | _ => Yaml.obj .nil) (q :: rest2) v with
        | none => rw [hset] at hm; cases hm
        | some c2 =>
          rw [hset] at hm
          have h2 : y2 = .obj (setE l p c2) := by
            cases hm
            rfl
          subst h2
          show (match lookupE (setE l p c2) p with
                | some w => yamlGetParts (q :: rest2) w
                | none => none) = some v
          rw [lookupE_setE]
          exact ih _ _ hset
      | str s => simp [setDeepParts] at h
      | num lit => simp [setDeepParts] at h
      | bool b => simp [setDeepParts] at h
      | null => simp [setDeepParts] at h

/-- Loading one unseen tree file into the empty state. -/
theorem loadFile_yaml_fresh (p : String) (v : Option Yaml) (loc : String)
    (hloc : localeOf p = some loc) :
    loadFile ⟨[], []⟩ ⟨p, .yamlFile v⟩
      = ⟨yamlKeySourceUpd [(loc, ⟨[], [], .yaml, some (orEmptyJs v)⟩)] loc v p, [p]⟩ := by
  unfold loadFile
  rw [hloc]
  rfl

/-- The keySource update on a singleton cache holding a truthy-parsed YAML
store. -/
theorem yamlKeySourceUpd_single (loc : String) (S : CachedProperties) (v : Option Yaml)
    (p : String) (hty : S.type = .yaml) (htr : jsTruthyOpt v = true) :
    yamlKeySourceUpd [(loc, S)] loc v p
      = [(loc, { S with keySource := addSourceKeys S.keySource (collectKeysOpt v) p })] := by
  unfold yamlKeySourceUpd
  simp [lookupJ_cons, hty, htr, setJ]

/-- Reloading a single tree file with a truthy parse result. -/
theorem reload_single_yaml (p : String) (y : Yaml) (loc : String)
    (hloc : localeOf p = some loc) (hty : jsTruthy y = true) :
    reload [⟨p, .yamlFile (some y)⟩]
      = [(loc, ⟨[], addSourceKeys [] (collectYamlKeys y "") p, .yaml, some y⟩)] := by
  have h1 : reload [⟨p, .yamlFile (some y)⟩]
      = (loadFile ⟨[], []⟩ ⟨p, .yamlFile (some y)⟩).cache := rfl
  rw [h1, loadFile_yaml_fresh p (some y) loc hloc]
  have he : orEmptyJs (some y) = y := by simp [orEmptyJs, hty]
  rw [he, yamlKeySourceUpd_single loc _ (some y) p rfl (by simp [jsTruthyOpt, hty])]
  rfl

/-- Every attribution added over an empty map carries the loaded path. -/
theorem lookupJ_addSourceKeys_value (ks : List (String × String)) (keys : List String)
    (p k u : String) (h : lookupJ (addSourceKeys ks keys p) k = some u) :
    lookupJ ks k = some u ∨ u = p := by
  induction keys generalizing ks with
  | nil => exact Or.inl h
  | cons k1 rest ih =>
    have h2 : lookupJ (addSourceKeys (if hasKeyJ ks k1 then ks else ks ++ [(k1, p)]) rest p) k
        = some u := h
    by_cases hh : hasKeyJ ks k1
    · rw [if_pos hh] at h2
      exact ih ks h2
    · rw [if_neg hh] at h2
      rcases ih _ h2 with h3 | h3
      · rw [lookupJ_append] at h3
        cases hres : lookupJ ks k with
        | some w =>
          rw [hres] at h3
          exact Or.inl h3
        | none =>
          rw [hres] at h3
          by_cases hk1 : k = k1
          · simp [orO, lookupJ_cons, lookupJ_nil, hk1] at h3
            exact Or.inr h3.symm
          · simp [orO, lookupJ_cons, lookupJ_nil, hk1] at h3
      · exact Or.inr h3

/-- The first attribution over an empty map is the first collected key with
the loaded path. -/
theorem addSourceKeys_nil_head (k0 : String) (rest : List String) (p : String) :
    ∃ tail, addSourceKeys [] (k0 :: rest) p = (k0, p) :: tail := by
  have hext : ∀ (keys : List String) (ks : List (String × String)),
      ∃ ext, addSourceKeys ks keys p = ks ++ ext := by
    intro keys
    induction keys with
    | nil => exact fun ks => ⟨[], by simp [addSourceKeys]⟩
    | cons k1 restk ih =>
      intro ks
      show (∃ ext, addSourceKeys (if hasKeyJ ks k1 then ks else ks ++ [(k1, p)]) restk p
        = ks ++ ext)
      by_cases hh : hasKeyJ ks k1
      · rw [if_pos hh]
        exact ih ks
      · rw [if_neg hh]
        obtain ⟨ext, hext2⟩ := ih (ks ++ [(k1, p)])
        exact ⟨[(k1, p)] ++ ext, by rw [hext2, List.append_assoc]⟩
  show (∃ tail, addSourceKeys (if hasKeyJ [] k0 then [] else [] ++ [(k0, p)]) rest p
    = (k0, p) :: tail)
  have hh : hasKeyJ ([] : List (String × String)) k0 = false := rfl
  rw [hh]
  simp only [Bool.false_eq_true, if_false, List.nil_append]
  obtain ⟨ext, h⟩ := hext rest [(k0, p)]
  exact ⟨ext, by rw [h]; rfl⟩

/-- C3, amended: for a locale backed by a single tree file with an object
root carrying at least one collected key, writeTranslation followed by
reload followed by getTranslation returns exactly the written string, for
every key and every value. -/
theorem c3_amended_tree_roundtrip (p : String) (l0 : YEntries) (loc k v : String)
    (hloc : localeOf p = some loc)
    (hkeys : ¬ collectYamlEntries l0 "" = []) :
    getTranslation
      (reload (writeTranslation (reload [⟨p, .yamlFile (some (.obj l0))⟩])
        [⟨p, .yamlFile (some (.obj l0))⟩] k loc v))
      k loc = some (.str v) := by
  have hre := reload_single_yaml p (.obj l0) loc hloc rfl
  set S1 : CachedProperties :=
    ⟨[], addSourceKeys [] (collectYamlKeys (.obj l0) "") p, .yaml, some (.obj l0)⟩ with hS1
  -- the write resolves to the single file
  have hl : lookupJ [(loc, S1)] loc = some S1 := by simp [lookupJ_cons]
  have huri : resolveWriteUri (reload [⟨p, .yamlFile (some (.obj l0))⟩]) k loc = some p := by
    unfold resolveWriteUri getSourceFile
    rw [hre, hl]
    show (match lookupJ S1.keySource k with
          | some u => some u
          | none =>
            match S1.keySource with
            | (_, u) :: _ => some u
            | [] => none) = some p
    cases hsf : lookupJ S1.keySource k with
    | some u =>
      rcases lookupJ_addSourceKeys_value [] (collectYamlKeys (.obj l0) "") p k u hsf with h | h
      · rw [lookupJ_nil] at h
        cases h
      · subst h
        rfl
    | none =>
      cases hcol : collectYamlKeys (.obj l0) "" with
      | nil => exact absurd hcol hkeys
      | cons k0 restk =>
        obtain ⟨tail, htail⟩ := addSourceKeys_nil_head k0 restk p
        have hks : S1.keySource = (k0, p) :: tail := by
          rw [hS1]
          show addSourceKeys [] (collectYamlKeys (.obj l0) "") p = _
          rw [hcol, htail]
        rw [hks]
  -- the write succeeds structurally
  obtain ⟨l2, hset⟩ := setDeepParts_obj_some (splitKey k) (splitKey_ne_nil k) l0 v
  have hw : writeTranslation (reload [⟨p, .yamlFile (some (.obj l0))⟩])
      [⟨p, .yamlFile (some (.obj l0))⟩] k loc v
      = [⟨p, .yamlFile (some (.obj l2))⟩] := by
    unfold writeTranslation
    rw [huri]
    show [if p = p then (⟨p, writeFileContent (.yamlFile (some (.obj l0))) k v⟩ : File)
          else ⟨p, .yamlFile (some (.obj l0))⟩]
        = [⟨p, .yamlFile (some (.obj l2))⟩]
    rw [if_pos rfl]
    show [(⟨p, match setDeepParts (.obj l0) (splitKey k) v with
               | some y2 => FileContent.yamlFile (some y2)
               | none => .yamlFile (some (.obj l0))⟩ : File)]
        = [⟨p, .yamlFile (some (.obj l2))⟩]
    rw [hset]
  rw [hw, reload_single_yaml p (.obj l2) loc hloc rfl]
  unfold getTranslation
  simp only [lookupJ_cons, if_pos rfl]
  show (if jsTruthy (.obj l2) then (getYamlValue (.obj l2) k).map JsVal.str else none)
    = some (.str v)
  rw [show jsTruthy (.obj l2) = true from rfl, if_pos rfl]
  unfold getYamlValue
  rw [yamlGetParts_setDeepParts (splitKey k) (.obj l0) (.obj l2) v hset]
  rfl

/-- C3, witness: the amended tree round trip at a concrete file, with a
value containing an equality sign, dots and a non-ASCII character. -/
theorem c3_amended_witness :
    localeOf "messages_en.yml" = some "en"
    ∧ ¬ collectYamlEntries (yentries [("x", .str "1")]) "" = []
    ∧ getTranslation
        (reload (writeTranslation
          (reload [⟨"messages_en.yml", .yamlFile (some (.obj (yentries [("x", .str "1")])))⟩])
          [⟨"messages_en.yml", .yamlFile (some (.obj (yentries [("x", .str "1")])))⟩]
          "a.b" "en" "2.5 =x ü"))
        "a.b" "en" = some (.str "2.5 =x ü") :=
  ⟨by decide, by decide,
    c3_amended_tree_roundtrip "messages_en.yml" (yentries [("x", .str "1")]) "en" "a.b"
      "2.5 =x ü" (by decide) (by decide)⟩

/-! ## C8: getAllKeys is a sorted, duplicate-free, complete enumeration -/

theorem charsLe_cons (a b : Char) (as bs : List Char) :
    charsLe (a :: as) (b :: bs)
      = (if a.toNat < b.toNat then true
         else if b.toNat < a.toNat then false else charsLe as bs) := rfl

theorem charsLe_total : ∀ (a b : List Char), charsLe a b = true ∨ charsLe b a = true
  | [], _ => Or.inl rfl
  | _ :: _, [] => Or.inr rfl
  | a :: as, b :: bs => by
    rw [charsLe_cons, charsLe_cons]
    rcases Nat.lt_trichotomy a.toNat b.toNat with h | h | h
    · left
      rw [if_pos h]
    · rw [if_neg (by omega), if_neg (by omega), if_neg (by omega), if_neg (by omega)]
      exact charsLe_total as bs
    · right
      rw [if_pos h]

theorem charsLe_trans : ∀ (a b c : List Char),
    charsLe a b = true → charsLe b c = true → charsLe a c = true
  | [], _, _, _, _ => rfl
  | _ :: _, [], _, h1, _ => by cases h1
  | _ :: _, _ :: _, [], _, h2 => by cases h2
  | a :: as, b :: bs, c :: cs, h1, h2 => by
    rw [charsLe_cons] at h1 h2 ⊢
    by_cases hab : a.toNat < b.toNat
    · by_cases hbc : b.toNat < c.toNat
      · rw [if_pos (Nat.lt_trans hab hbc)]
      · rw [if_neg hbc] at h2
        by_cases hcb : c.toNat < b.toNat
        · rw [if_pos hcb] at h2
          cases h2
        · rw [if_pos (by omega)]
    · rw [if_neg hab] at h1
      by_cases hba : b.toNat < a.toNat
      · rw [if_pos hba] at h1
        cases h1
      · rw [if_neg hba] at h1
        by_cases hbc : b.toNat < c.toNat
        · rw [if_pos (by omega)]
        · rw [if_neg hbc] at h2
          by_cases hcb : c.toNat < b.toNat
          · rw [if_pos hcb] at h2
            cases h2
          · rw [if_neg hcb] at h2
            rw [if_neg (by omega), if_neg (by omega)]
            exact charsLe_trans as bs cs h1 h2

theorem strLe_total (s t : String) : strLe s t = true ∨ strLe t s = true :=
  charsLe_total s.data t.data

theorem strLe_trans (s t u : String) (h1 : strLe s t = true) (h2 : strLe t u = true) :
    strLe s u = true :=
  charsLe_trans s.data t.data u.data h1 h2

theorem mem_insertSorted (x b : String) (l : List String) :
    b ∈ insertSorted x l ↔ b = x ∨ b ∈ l := by
  induction l with
  | nil => simp [insertSorted]
  | cons y ys ih =>
    unfold insertSorted
    by_cases h : strLe x y
    · simp [h]
    · simp only [Bool.not_eq_true] at h
      simp [h, ih, List.mem_cons]
      tauto

theorem sorted_insertSorted (x : String) (l : List String)
    (h : List.Sorted (fun a b => strLe a b = true) l) :
    List.Sorted (fun a b => strLe a b = true) (insertSorted x l) := by
  induction l with
  | nil => simp [insertSorted]
  | cons y ys ih =>
    unfold insertSorted
    rw [List.sorted_cons] at h
    obtain ⟨hy, hys⟩ := h
    by_cases hxy : strLe x y
    · rw [if_pos hxy, List.sorted_cons]
      refine ⟨?_, by rw [List.sorted_cons]; exact ⟨hy, hys⟩⟩
      intro b hb
      rcases List.mem_cons.mp hb with h | h
      · subst h
        exact hxy
      · exact strLe_trans x y b hxy (hy b h)
    · rw [if_neg hxy, List.sorted_cons]
      refine ⟨?_, ih hys⟩
      intro b hb
      rcases (mem_insertSorted x b ys).mp hb with h | h
      · rw [h]
        rcases strLe_total x y with h2 | h2
        · exact absurd h2 hxy
        · exact h2
      · exact hy b h

theorem perm_insertSorted (x : String) (l : List String) :
    List.Perm (insertSorted x l) (x :: l) := by
  induction l with
  | nil => exact List.Perm.refl _
  | cons y ys ih =>
    unfold insertSorted
    by_cases h : strLe x y
    · rw [if_pos h]
    · rw [if_neg h]
      exact (ih.cons y).trans (List.Perm.swap x y ys)

theorem sortJs_perm (l : List String) : List.Perm (sortJs l) l := by
  induction l with
  | nil => exact List.Perm.refl _
  | cons x xs ih =>
    show List.Perm (insertSorted x (sortJs xs)) (x :: xs)
    exact (perm_insertSorted x (sortJs xs)).trans (ih.cons x)

theorem sorted_sortJs (l : List String) :
    List.Sorted (fun a b => strLe a b = true) (sortJs l) := by
  induction l with
  | nil => simp [sortJs]
  | cons x xs ih => exact sorted_insertSorted x (sortJs xs) ih

theorem mem_dedupFirstAux (seen l : List String) (k : String) :
    k ∈ dedupFirstAux seen l ↔ k ∈ l ∧ ¬ k ∈ seen := by
  induction l generalizing seen with
  | nil => simp [dedupFirstAux]
  | cons x xs ih =>
    unfold dedupFirstAux
    by_cases hx : seen.contains x
    · rw [if_pos hx, ih]
      have hxs : x ∈ seen := by
        have h0 := hx
        rwa [List.elem_iff] at h0
      constructor
      · rintro ⟨h1, h2⟩
        exact ⟨List.mem_cons_of_mem _ h1, h2⟩
      · rintro ⟨h1, h2⟩
        rcases List.mem_cons.mp h1 with h | h
        · subst h
          exact absurd hxs h2
        · exact ⟨h, h2⟩
    · rw [if_neg hx]
      have hxs : ¬ x ∈ seen := by
        intro hmem
        exact hx (by rwa [List.elem_iff])
      constructor
      · intro h
        rcases List.mem_cons.mp h with h | h
        · subst h
          exact ⟨List.mem_cons_self _ _, hxs⟩
        · obtain ⟨h1, h2⟩ := (ih (seen ++ [x])).mp h
          refine ⟨List.mem_cons_of_mem _ h1, ?_⟩
          intro hk
          exact h2 (List.mem_append_left _ hk)
      · rintro ⟨h1, h2⟩
        rcases List.mem_cons.mp h1 with h | h
        · subst h
          exact List.mem_cons_self k _
        · by_cases hkx : k = x
          · subst hkx
            exact List.mem_cons_self k _
          · refine List.mem_cons_of_mem _ ((ih (seen ++ [x])).mpr ⟨h, ?_⟩)
            intro hk
            rcases List.mem_append.mp hk with h3 | h3
            · exact h2 h3
            · simp at h3
              exact hkx h3

theorem nodup_dedupFirstAux (seen l : List String) : (dedupFirstAux seen l).Nodup := by
  induction l generalizing seen with
  | nil => exact List.nodup_nil
  | cons x xs ih =>
    unfold dedupFirstAux
    by_cases hx : seen.contains x
    · rw [if_pos hx]
      exact ih seen
    · rw [if_neg hx]
      refine List.Nodup.cons ?_ (ih (seen ++ [x]))
      intro hmem
      obtain ⟨_, h2⟩ := (mem_dedupFirstAux (seen ++ [x]) xs x).mp hmem
      exact h2 (List.mem_append_right _ (List.mem_singleton.mpr rfl))

theorem mem_keysFold (cache : Cache) (acc : List String) (k : String) :
    k ∈ cache.foldl (fun acc lc => acc ++ storeKeysEnum lc.2) acc
      ↔ k ∈ acc ∨ ∃ lc ∈ cache, k ∈ storeKeysEnum lc.2 := by
  induction cache generalizing acc with
  | nil => simp
  | cons lc rest ih =>
    show k ∈ rest.foldl (fun acc lc => acc ++ storeKeysEnum lc.2) (acc ++ storeKeysEnum lc.2)
      ↔ _
    rw [ih]
    simp [List.mem_append, or_assoc]

/-- C8: getAllKeys is sorted by the lexicographic comparator, contains no
duplicates, and holds exactly the keys present in at least one locale store
(flat stores enumerated through the reader, tree stores through the
recursive traversal). -/
theorem c8_allKeys_sorted_nodup_complete (cache : Cache) :
    List.Sorted (fun a b => strLe a b = true) (getAllKeys cache)
    ∧ (getAllKeys cache).Nodup
    ∧ ∀ k, k ∈ getAllKeys cache ↔ ∃ lc ∈ cache, k ∈ storeKeysEnum lc.2 := by
  refine ⟨sorted_sortJs _, ?_, ?_⟩
  · exact (sortJs_perm _).nodup_iff.mpr (nodup_dedupFirstAux [] _)
  · intro k
    rw [show getAllKeys cache
        = sortJs (dedupFirst (cache.foldl (fun acc lc => acc ++ storeKeysEnum lc.2) []))
      from rfl]
    rw [(sortJs_perm _).mem_iff]
    unfold dedupFirst
    rw [mem_dedupFirstAux, mem_keysFold]
    simp

/-! ## C6: the merge policy of deepMerge -/

theorem lookupE_cons (k2 : String) (v : Yaml) (rest : YEntries) (k : String) :
    lookupE (.cons k2 v rest) k = if k = k2 then some v else lookupE rest k := rfl

theorem keysE_cons (k : String) (v : Yaml) (rest : YEntries) :
    keysE (.cons k v rest) = k :: keysE rest := rfl

theorem lookupE_setE_ne : ∀ (l : YEntries) (k1 : String) (v : Yaml) (k : String),
    ¬ k = k1 → lookupE (setE l k1 v) k = lookupE l k
  | .nil, k1, v, k, h => by
    show lookupE (.cons k1 v .nil) k = lookupE .nil k
    rw [lookupE_cons, if_neg h]
  | .cons k2 w rest, k1, v, k, h => by
    show lookupE (if k1 = k2 then .cons k2 v rest else .cons k2 w (setE rest k1 v)) k = _
    by_cases h2 : k1 = k2
    · subst h2
      rw [if_pos rfl, lookupE_cons, lookupE_cons, if_neg h, if_neg h]
    · rw [if_neg h2, lookupE_cons, lookupE_cons]
      by_cases hk2 : k = k2
      · rw [if_pos hk2, if_pos hk2]
      · rw [if_neg hk2, if_neg hk2, lookupE_setE_ne rest k1 v k h]

theorem lookupE_eq_none_of_not_mem : ∀ (l : YEntries) (k : String),
    ¬ k ∈ keysE l → lookupE l k = none
  | .nil, _, _ => rfl
  | .cons k2 v rest, k, h => by
    rw [lookupE_cons,
      if_neg (fun hh => h (by rw [keysE_cons, hh]; exact List.mem_cons_self _ _))]
    exact lookupE_eq_none_of_not_mem rest k
      (fun hh => h (by rw [keysE_cons]; exact List.mem_cons_of_mem _ hh))

theorem lookupE_objAssignE : ∀ (src : YEntries), (keysE src).Nodup →
    ∀ (dst : YEntries) (k : String),
      lookupE (objAssignE dst src) k = orO (lookupE src k) (lookupE dst k)
  | .nil, _, dst, k => by
    show lookupE dst k = orO none (lookupE dst k)
    rfl
  | .cons k1 v1 rest, hnd, dst, k => by
    rw [keysE_cons] at hnd
    have hk1mem := (List.nodup_cons.mp hnd).1
    have hnd2 := (List.nodup_cons.mp hnd).2
    show lookupE (objAssignE (setE dst k1 v1) rest) k = _
    rw [lookupE_objAssignE rest hnd2 (setE dst k1 v1) k]
    by_cases hk : k = k1
    · subst hk
      rw [lookupE_eq_none_of_not_mem rest k hk1mem, lookupE_cons, if_pos rfl, lookupE_setE]
      rfl
    · rw [lookupE_cons, if_neg hk, lookupE_setE_ne dst k1 v1 k hk]

theorem mergeE_keys : ∀ (t : Yaml) (s sl2 : YEntries), mergeE t s = .ok sl2 →
    keysE sl2 = keysE s
  | t, .nil, sl2, hok => by
    have h0 : (Except.ok YEntries.nil : Except Unit YEntries) = .ok sl2 := hok
    cases h0
    rfl
  | t, .cons k1 sv rest, sl2, hok => by
    unfold mergeE at hok
    split at hok
    · split at hok
      · split at hok
        · split at hok
          · split at hok
            · cases hok
              rw [keysE_cons, keysE_cons, mergeE_keys _ _ _ (by assumption)]
            · cases hok
          · cases hok
        · split at hok
          · cases hok
            rw [keysE_cons, keysE_cons, mergeE_keys _ _ _ (by assumption)]
          · cases hok
      · cases hok
    · split at hok
      · cases hok
        rw [keysE_cons, keysE_cons, mergeE_keys _ _ _ (by assumption)]
      · cases hok

/-- The key-wise effect of one merge pass over the source entries: a key
absent from the source stays absent, a non-object source value passes
through unchanged, and an object source value stays an object. -/
theorem mergeE_lookup : ∀ (t : Yaml) (s sl2 : YEntries), mergeE t s = .ok sl2 → ∀ k,
    (lookupE s k = none → lookupE sl2 k = none)
    ∧ (∀ sv, lookupE s k = some sv → isObjY sv = false → lookupE sl2 k = some sv)
    ∧ (∀ sv, lookupE s k = some sv → isObjY sv = true →
        ∃ l2, lookupE sl2 k = some (.obj l2))
  | t, .nil, sl2, hok, k => by
    have h0 : (Except.ok YEntries.nil : Except Unit YEntries) = .ok sl2 := hok
    cases h0
    refine ⟨fun _ => rfl, ?_, ?_⟩ <;> intro sv hsv <;> cases hsv
  | t, .cons k1 sv rest, sl2, hok, k => by
    have step : ∀ (sv2 : Yaml) (rest2 : YEntries), mergeE t rest = .ok rest2 →
        (isObjY sv = false → sv2 = sv) → (isObjY sv = true → ∃ l2, sv2 = .obj l2) →
        (lookupE (.cons k1 sv rest) k = none → lookupE (.cons k1 sv2 rest2) k = none)
        ∧ (∀ sv3, lookupE (.cons k1 sv rest) k = some sv3 → isObjY sv3 = false →
            lookupE (.cons k1 sv2 rest2) k = some sv3)
        ∧ (∀ sv3, lookupE (.cons k1 sv rest) k = some sv3 → isObjY sv3 = true →
            ∃ l2, lookupE (.cons k1 sv2 rest2) k = some (.obj l2)) := by
      intro sv2 rest2 hrest hflat hobj2
      obtain ⟨ihn, ihf, iho⟩ := mergeE_lookup t rest rest2 hrest k
      refine ⟨?_, ?_, ?_⟩
      · intro h
        rw [lookupE_cons] at h ⊢
        by_cases hk : k = k1
        · rw [if_pos hk] at h
          cases h
        · rw [if_neg hk] at h ⊢
          exact ihn h
      · intro sv3 hsv3 hio
        rw [lookupE_cons] at hsv3 ⊢
        by_cases hk : k = k1
        · rw [if_pos hk] at hsv3 ⊢
          have hsv3e : sv = sv3 := by cases hsv3; rfl
          subst hsv3e
          rw [hflat hio]
        · rw [if_neg hk] at hsv3 ⊢
          exact ihf sv3 hsv3 hio
      · intro sv3 hsv3 hio
        rw [lookupE_cons] at hsv3 ⊢
        by_cases hk : k = k1
        · rw [if_pos hk] at hsv3 ⊢
          have hsv3e : sv = sv3 := by cases hsv3; rfl
          subst hsv3e
          obtain ⟨l2, hl2⟩ := hobj2 hio
          exact ⟨l2, by rw [hl2]⟩
        · rw [if_neg hk] at hsv3 ⊢
          exact iho sv3 hsv3 hio
    unfold mergeE at hok
    split at hok
    · split at hok
      · split at hok
        · split at hok
          · split at hok
            · cases hok
              exact step _ _ (by assumption) (fun hh => by cases hh)
                (fun _ => ⟨_, rfl⟩)
            · cases hok
          · cases hok
        · split at hok
          · cases hok
            exact step _ _ (by assumption) (fun hh => by cases hh)
              (fun _ => ⟨_, rfl⟩)
          · cases hok
      · cases hok
    · split at hok
      · cases hok
        rename_i v0 hnotobj x0 rest2 heq
        exact step _ _ heq (fun _ => rfl)
          (fun hh => by
            exfalso
            cases sv
            case obj svl => exact hnotobj svl rfl
            all_goals cases hh)
      · cases hok

/-- C6, amended: when deepMerge succeeds on two objects (source keys
unique, as produced by a parsed document), the merged value is key-wise: a
key only in the target keeps the target value; a non-object value of the
source replaces whatever the target held there, including a scalar blindly
overwriting a nested object; an object value of the source yields a nested
object in the result. -/
theorem c6_amended_merge_policy (t s : YEntries) (m : Yaml) (k : String)
    (hnd : (keysE s).Nodup)
    (hm : deepMerge (.obj t) (.obj s) = .ok m) :
    (∀ sv, lookupE s k = some sv → isObjY sv = false → yLookup m k = some sv)
    ∧ (lookupE s k = none → yLookup m k = lookupE t k)
    ∧ (∀ sv, lookupE s k = some sv → isObjY sv = true →
        ∃ l2, yLookup m k = some (.obj l2)) := by
  have hm0 : (match mergeE (.obj t) s with
              | Except.ok sl2 => Except.ok (spreadJs (.obj t) (.obj sl2))
              | Except.error e => Except.error e) = Except.ok m := hm
  cases hmg : mergeE (.obj t) s with
  | error e =>
    rw [hmg] at hm0
    cases hm0
  | ok sl2 =>
    rw [hmg] at hm0
    have hm2 : m = spreadJs (.obj t) (.obj sl2) := by
      cases hm0
      rfl
    subst hm2
    have hknd : (keysE sl2).Nodup := by
      rw [mergeE_keys _ _ _ hmg]
      exact hnd
    have hy : yLookup (spreadJs (.obj t) (.obj sl2)) k
        = orO (lookupE sl2 k) (lookupE t k) := by
      show lookupE (objAssignE t sl2) k = _
      exact lookupE_objAssignE sl2 hknd t k
    obtain ⟨hnone, hnonobj, hobj⟩ := mergeE_lookup (.obj t) s sl2 hmg k
    refine ⟨?_, ?_, ?_⟩
    · intro sv hsv hio
      rw [hy, hnonobj sv hsv hio]
      rfl
    · intro hn
      rw [hy, hnone hn]
      rfl
    · intro sv hsv hio
      obtain ⟨l2, hl2⟩ := hobj sv hsv hio
      exact ⟨l2, by rw [hy, hl2]; rfl⟩

/-- C6, witness: the amended merge policy at a concrete pair of trees. -/
theorem c6_amended_witness :
    (keysE exC6source).Nodup
    ∧ deepMerge (.obj exC6target) (.obj exC6source) = .ok exC6merged
    ∧ ((∀ sv, lookupE exC6source "a" = some sv → isObjY sv = false →
          yLookup exC6merged "a" = some sv)
      ∧ (lookupE exC6source "a" = none → yLookup exC6merged "a" = lookupE exC6target "a")
      ∧ (∀ sv, lookupE exC6source "a" = some sv → isObjY sv = true →
          ∃ l2, yLookup exC6merged "a" = some (.obj l2))) :=
  ⟨by decide, rfl,
    c6_amended_merge_policy exC6target exC6source exC6merged "a" (by decide) rfl⟩

/-! ## C1: value merge is last-wins, attribution is first-wins -/

/-- Reader lookup against an appended reader: a key present in the later
text answers with the later value. -/
theorem lookupJ_appendReader_of_later (r : List (String × String)) (t2 k v2 : String)
    (hv2 : lookupJ (readerOf t2) k = some v2) :
    lookupJ (appendReader r t2) k = some v2 := by
  have h0 : lookupJ (setFold ([] : List (String × String)) (parseProps t2)) k = some v2 := hv2
  rw [lookupJ_setFold] at h0
  have h1 : lookupJ (parseProps t2).reverse k = some v2 := by
    cases hres : lookupJ (parseProps t2).reverse k with
    | some w =>
      rw [hres] at h0
      exact h0
    | none =>
      rw [hres] at h0
      cases h0
  show lookupJ (setFold r (parseProps t2)) k = some v2
  rw [lookupJ_setFold, h1]
  rfl

/-- C1, amended: with two flat files of one locale loaded in discovery
order, both defining the key, the published translation is the later file's
value (the overwriting append) while the source attribution is the first
file (the first-wins keySource guard). -/
theorem c1_amended_last_value_first_source (p1 p2 t1 t2 loc k v1 v2 : String)
    (hpne : ¬ p1 = p2)
    (hloc1 : localeOf p1 = some loc) (hloc2 : localeOf p2 = some loc)
    (hv1 : lookupJ (readerOf t1) k = some v1)
    (hv2 : lookupJ (readerOf t2) k = some v2) :
    getTranslation (reload [⟨p1, .props t1⟩, ⟨p2, .props t2⟩]) k loc = some (parseVal v2)
    ∧ getSourceFile (reload [⟨p1, .props t1⟩, ⟨p2, .props t2⟩]) k loc = some p1 := by
  have h1 : loadFile ⟨[], []⟩ ⟨p1, .props t1⟩
      = ⟨[(loc, ⟨readerOf t1, addSourceKeys [] ((readerOf t1).map Prod.fst) p1,
          .properties, none⟩)], [p1]⟩ := by
    unfold loadFile
    rw [hloc1]
    simp [lookupJ_nil, lookupJ_cons, setJ]
  have hc2 : ¬ ([p1].contains p2 = true) := by
    intro h
    exact hpne ((List.mem_singleton.mp (List.elem_iff.mp h)).symm)
  have h2 : loadFile ⟨[(loc, ⟨readerOf t1, addSourceKeys [] ((readerOf t1).map Prod.fst) p1,
        .properties, none⟩)], [p1]⟩ ⟨p2, .props t2⟩
      = ⟨[(loc, ⟨appendReader (readerOf t1) t2,
          addSourceKeys (addSourceKeys [] ((readerOf t1).map Prod.fst) p1)
            ((readerOf t2).map Prod.fst) p2,
          .properties, none⟩)], [p1] ++ [p2]⟩ := by
    unfold loadFile
    rw [if_neg hc2, hloc2]
    simp [lookupJ_cons, setJ]
  have hre : reload [⟨p1, .props t1⟩, ⟨p2, .props t2⟩]
      = [(loc, ⟨appendReader (readerOf t1) t2,
          addSourceKeys (addSourceKeys [] ((readerOf t1).map Prod.fst) p1)
            ((readerOf t2).map Prod.fst) p2,
          .properties, none⟩)] := by
    show (loadFile (loadFile ⟨[], []⟩ ⟨p1, .props t1⟩) ⟨p2, .props t2⟩).cache = _
    rw [h1, h2]
  have hks1 : lookupJ (addSourceKeys [] ((readerOf t1).map Prod.fst) p1) k = some p1 := by
    refine lookupJ_addSourceKeys_of_mem [] _ p1 k rfl ?_
    exact (lookupJ_isSome_iff_mem (readerOf t1) k).mp (by rw [hv1]; rfl)
  constructor
  · rw [hre]
    unfold getTranslation
    simp only [lookupJ_cons, if_pos rfl]
    show (lookupJ (appendReader (readerOf t1) t2) k).map parseVal = some (parseVal v2)
    rw [lookupJ_appendReader_of_later _ _ _ _ hv2]
    rfl
  · rw [hre]
    unfold getSourceFile
    simp only [lookupJ_cons, if_pos rfl]
    show lookupJ (addSourceKeys (addSourceKeys [] ((readerOf t1).map Prod.fst) p1)
        ((readerOf t2).map Prod.fst) p2) k = some p1
    rw [lookupJ_addSourceKeys_of_isSome _ _ _ _ (by rw [hks1]; rfl), hks1]

/-- C1, witness: the amended statement at the concrete two-file scenario of
the claim. -/
theorem c1_amended_witness :
    ¬ "messages_en.properties" = "other_en.properties"
    ∧ localeOf "messages_en.properties" = some "en"
    ∧ localeOf "other_en.properties" = some "en"
    ∧ lookupJ (readerOf "k1=v1\n") "k1" = some "v1"
    ∧ lookupJ (readerOf "k1=v2\n") "k1" = some "v2"
    ∧ (getTranslation (reload [⟨"messages_en.properties", .props "k1=v1\n"⟩,
          ⟨"other_en.properties", .props "k1=v2\n"⟩]) "k1" "en" = some (parseVal "v2")
      ∧ getSourceFile (reload [⟨"messages_en.properties", .props "k1=v1\n"⟩,
          ⟨"other_en.properties", .props "k1=v2\n"⟩]) "k1" "en"
        = some "messages_en.properties") :=
  ⟨by decide, by decide, by decide, by decide, by decide,
    c1_amended_last_value_first_source "messages_en.properties" "other_en.properties"
      "k1=v1\n" "k1=v2\n" "en" "k1" "v1" "v2"
      (by decide) (by decide) (by decide) (by decide) (by decide)⟩

/-! ## C2: the lock-step invariant for flat stores -/

theorem loadFile_skip (st : LoadState) (f : File)
    (h : st.loadedFiles.contains f.path = true) : loadFile st f = st := by
  unfold loadFile
  rw [if_pos h]

theorem loadFile_badname (st : LoadState) (f : File)
    (hcont : ¬ st.loadedFiles.contains f.path = true) (hloc : localeOf f.path = none) :
    loadFile st f = st := by
  unfold loadFile
  rw [if_neg hcont, hloc]

theorem loadFile_props_cache (st : LoadState) (p text loc : String)
    (hcont : ¬ st.loadedFiles.contains p = true) (hloc : localeOf p = some loc) :
    (loadFile st ⟨p, .props text⟩).cache
      = (let props := readerOf text
         let cache1 :=
           match lookupJ st.cache loc with
           | none => setJ st.cache loc ⟨props, [], .properties, none⟩
           | some c =>
             if c.type = .properties
             then setJ st.cache loc { c with reader := appendReader c.reader text }
             else st.cache
         match lookupJ cache1 loc with
         | some c =>
           if c.type = .properties
           then setJ cache1 loc
             { c with keySource := addSourceKeys c.keySource (props.map Prod.fst) p }
           else cache1
         | none => cache1) := by
  unfold loadFile
  rw [if_neg hcont, hloc]

theorem loadFile_yaml_state (st : LoadState) (p : String) (v : Option Yaml) (loc : String)
    (hcont : ¬ st.loadedFiles.contains p = true) (hloc : localeOf p = some loc) :
    loadFile st ⟨p, .yamlFile v⟩
      = (match lookupJ st.cache loc with
         | none =>
           ⟨yamlKeySourceUpd (setJ st.cache loc ⟨[], [], .yaml, some (orEmptyJs v)⟩) loc v p,
             st.loadedFiles ++ [p]⟩
         | some c =>
           if c.type = .yaml then
             match deepMerge (c.yamlObject.getD (.obj .nil)) (orEmptyJs v) with
             | .ok m =>
               ⟨yamlKeySourceUpd (setJ st.cache loc { c with yamlObject := some m }) loc v p,
                 st.loadedFiles ++ [p]⟩
             | .error _ => st
           else ⟨st.cache, st.loadedFiles ++ [p]⟩) := by
  unfold loadFile
  rw [if_neg hcont, hloc]

theorem flatLockStep_setJ (cache : Cache) (l : String) (S : CachedProperties)
    (h : ∀ loc c, ¬ loc = l → lookupJ cache loc = some c → c.type = .properties →
      ∀ k, (lookupJ c.reader k).isSome ↔ (lookupJ c.keySource k).isSome)
    (hS : S.type = .properties →
      ∀ k, (lookupJ S.reader k).isSome ↔ (lookupJ S.keySource k).isSome) :
    flatLockStep (setJ cache l S) := by
  intro loc c hlc hty k
  rw [lookupJ_setJ] at hlc
  by_cases hl : loc = l
  · rw [if_pos hl] at hlc
    cases hlc
    exact hS hty k
  · rw [if_neg hl] at hlc
    exact h loc c hl hlc hty k

theorem flatLockStep_other (cache : Cache) (l : String) (h : flatLockStep cache) :
    ∀ loc c, ¬ loc = l → lookupJ cache loc = some c → c.type = .properties →
      ∀ k, (lookupJ c.reader k).isSome ↔ (lookupJ c.keySource k).isSome :=
  fun loc c _ hlc hty k => h loc c hlc hty k

theorem flatLockStep_setJ_other (cache : Cache) (l : String) (S0 : CachedProperties)
    (h : flatLockStep cache) :
    ∀ loc c, ¬ loc = l → lookupJ (setJ cache l S0) loc = some c → c.type = .properties →
      ∀ k, (lookupJ c.reader k).isSome ↔ (lookupJ c.keySource k).isSome := by
  intro loc c hne hlc hty k
  rw [lookupJ_setJ, if_neg hne] at hlc
  exact h loc c hlc hty k

theorem flatLockStep_yamlKeySourceUpd (cache : Cache) (l : String) (v : Option Yaml)
    (p : String) (h : flatLockStep cache) : flatLockStep (yamlKeySourceUpd cache l v p) := by
  unfold yamlKeySourceUpd
  cases hcl : lookupJ cache l with
  | none => exact h
  | some c =>
    show flatLockStep (if (c.type = FileType.yaml && jsTruthyOpt v) = true then
        setJ cache l { c with keySource := addSourceKeys c.keySource (collectKeysOpt v) p }
      else cache)
    by_cases hg : (c.type = FileType.yaml && jsTruthyOpt v) = true
    · rw [if_pos hg]
      refine flatLockStep_setJ cache l _ (flatLockStep_other cache l h) ?_
      intro hty k
      exfalso
      have h1 : c.type = .yaml :=
        of_decide_eq_true ((Bool.and_eq_true _ _).mp hg).1
      have h2 : FileType.properties = FileType.yaml := by
        rw [← hty]
        exact h1
      cases h2
    · rw [if_neg hg]
      exact h

/-- The fresh flat store written by loadFile is in lock-step. -/
theorem flatLockStep_freshStore (text p : String) (k : String) :
    (lookupJ (readerOf text) k).isSome
      ↔ (lookupJ (addSourceKeys [] ((readerOf text).map Prod.fst) p) k).isSome := by
  rw [addSourceKeys_isSome, lookupJ_isSome_iff_mem]
  simp [lookupJ_nil]

/-- The appended flat store stays in lock-step. -/
theorem flatLockStep_appendStore (c : CachedProperties) (text p : String)
    (hck : ∀ k, (lookupJ c.reader k).isSome ↔ (lookupJ c.keySource k).isSome) (k : String) :
    (lookupJ (appendReader c.reader text) k).isSome
      ↔ (lookupJ (addSourceKeys c.keySource ((readerOf text).map Prod.fst) p) k).isSome := by
  show (lookupJ (setFold c.reader (parseProps text)) k).isSome ↔ _
  rw [setFold_isSome, addSourceKeys_isSome, lookupJ_isSome_iff_mem]
  have hmem : k ∈ (readerOf text).map Prod.fst ↔ k ∈ (parseProps text).map Prod.fst := by
    rw [← lookupJ_isSome_iff_mem]
    show (lookupJ (setFold [] (parseProps text)) k).isSome ↔ _
    rw [setFold_isSome]
    simp [lookupJ_nil]
  rw [hmem, ← lookupJ_isSome_iff_mem, hck k]

/-- Every single loadFile step preserves the flat lock-step invariant. -/
theorem flatLockStep_loadFile (st : LoadState) (f : File) (h : flatLockStep st.cache) :
    flatLockStep (loadFile st f).cache := by
  by_cases hcont : st.loadedFiles.contains f.path = true
  · rw [loadFile_skip st f hcont]
    exact h
  · cases hlocf : localeOf f.path with
    | none =>
      rw [loadFile_badname st f hcont hlocf]
      exact h
    | some locale =>
      obtain ⟨p, content⟩ := f
      cases content with
      | props text =>
        rw [loadFile_props_cache st p text locale hcont hlocf]
        cases hcl : lookupJ st.cache locale with
        | none =>
          simp only [hcl, lookupJ_setJ, eq_self_iff_true, if_true]
          refine flatLockStep_setJ _ locale _
            (flatLockStep_setJ_other st.cache locale _ h) ?_
          intro _ k
          exact flatLockStep_freshStore text p k
        | some c0 =>
          by_cases hty0 : c0.type = FileType.properties
          · simp only [hcl, hty0, eq_self_iff_true, if_true, lookupJ_setJ]
            refine flatLockStep_setJ _ locale _
              (flatLockStep_setJ_other st.cache locale _ h) ?_
            intro _ k
            exact flatLockStep_appendStore c0 text p (h locale c0 hcl hty0) k
          · simp only [hcl, hty0, if_false]
            exact h
      | yamlFile v =>
        rw [loadFile_yaml_state st p v locale hcont hlocf]
        cases hcl : lookupJ st.cache locale with
        | none =>
          refine flatLockStep_yamlKeySourceUpd _ locale v p ?_
          refine flatLockStep_setJ _ locale _ (flatLockStep_other st.cache locale h) ?_
          intro hty
          cases hty
        | some c0 =>
          show flatLockStep ((if c0.type = FileType.yaml then
              match deepMerge (c0.yamlObject.getD (.obj .nil)) (orEmptyJs v) with
              | .ok m =>
                (⟨yamlKeySourceUpd (setJ st.cache locale { c0 with yamlObject := some m })
                    locale v p, st.loadedFiles ++ [p]⟩ : LoadState)
              | .error _ => st
            else (⟨st.cache, st.loadedFiles ++ [p]⟩ : LoadState)) : LoadState).cache
          by_cases hty0 : c0.type = FileType.yaml
          · rw [if_pos hty0]
            cases hmg : deepMerge (c0.yamlObject.getD (.obj .nil)) (orEmptyJs v) with
            | ok m =>
              refine flatLockStep_yamlKeySourceUpd _ locale v p ?_
              refine flatLockStep_setJ _ locale _ (flatLockStep_other st.cache locale h) ?_
              intro hty
              exfalso
              have h2 : FileType.properties = FileType.yaml := by
                rw [← hty]
                exact hty0
              cases h2
            | error e => exact h
          · rw [if_neg hty0]
            exact h

/-- C2, amended: after every reload the lock-step invariant holds for every
flat store (also with mixed-format files around), so a translation answered
from a flat store always has a source attribution. -/
theorem c2_amended_flat_lockstep (files : List File) (loc : String) (c : CachedProperties)
    (hc : lookupJ (reload files) loc = some c) (hty : c.type = .properties) :
    (∀ k, (lookupJ c.reader k).isSome ↔ (lookupJ c.keySource k).isSome)
    ∧ ∀ k, (getTranslation (reload files) k loc).isSome →
        (getSourceFile (reload files) k loc).isSome := by
  have hgen : ∀ (fs : List File) (st : LoadState), flatLockStep st.cache →
      flatLockStep (fs.foldl loadFile st).cache := by
    intro fs
    induction fs with
    | nil => exact fun st h => h
    | cons f rest ih =>
      intro st h
      exact ih (loadFile st f) (flatLockStep_loadFile st f h)
  have hinv : flatLockStep (reload files) := by
    refine hgen files ⟨[], []⟩ ?_
    intro loc2 c2 hlc2
    cases hlc2
  have hiff := hinv loc c hc hty
  refine ⟨hiff, ?_⟩
  intro k hk
  unfold getTranslation at hk
  rw [hc] at hk
  have hk0 : ((match c.type with
      | FileType.properties => Option.map parseVal (lookupJ c.reader k)
      | FileType.yaml =>
        match c.yamlObject with
        | some y => if jsTruthy y = true then Option.map JsVal.str (getYamlValue y k) else none
        | none => none)).isSome = true := hk
  rw [hty] at hk0
  have hk2 : (lookupJ c.reader k).isSome := by
    cases hres : lookupJ c.reader k with
    | some w => rfl
    | none =>
      rw [hres] at hk0
      have hk1 : (Option.map parseVal (none : Option String)).isSome = true := hk0
      exact Bool.noConfusion hk1
  unfold getSourceFile
  rw [hc]
  show (lookupJ c.keySource k).isSome = true
  rw [← hiff k]
  exact hk2

/-- C2, witness: the amended lock-step statement on a mixed file set (two
flat files and one tree file) at its flat store. -/
theorem c2_amended_witness :
    lookupJ (reload exC2wfs) "en" = some exC2wStore
    ∧ exC2wStore.type = .properties
    ∧ ((∀ k, (lookupJ exC2wStore.reader k).isSome ↔ (lookupJ exC2wStore.keySource k).isSome)
      ∧ ∀ k, (getTranslation (reload exC2wfs) k "en").isSome →
          (getSourceFile (reload exC2wfs) k "en").isSome) :=
  ⟨rfl, rfl, c2_amended_flat_lockstep exC2wfs "en" exC2wStore rfl rfl⟩

/-! ## The C5 chain: the YAML deletion removes the key line and its block -/

theorem memTakeWhileTrue (p : String → Bool) :
    ∀ (ls : List String) (l : String), l ∈ ls.takeWhile p → p l = true
  | [], l => by
    intro h
    simp [List.takeWhile] at h
  | x :: xs, l => by
    intro h
    rw [List.takeWhile_cons] at h
    cases hpx : p x with
    | false =>
      rw [hpx] at h
      simp at h
    | true =>
      rw [hpx] at h
      simp at h
      rcases h with h | h
      · rw [h]; exact hpx
      · exact memTakeWhileTrue p xs l h

theorem rstripBlank_decomp :
    ∀ ls : List String,
      ∃ rest, ls = rstripBlank ls ++ rest ∧ ∀ l ∈ rest, isBlankLine l = true
  | [] => ⟨[], rfl, by intro l h; simp at h⟩
  | x :: xs => by
    obtain ⟨rest, hxs, hbl⟩ := rstripBlank_decomp xs
    by_cases hr : rstripBlank xs = []
    · have hxe : xs = rest := by rw [hr] at hxs; simpa using hxs
      by_cases hx : isBlankLine x = true
      · refine ⟨x :: xs, ?_, ?_⟩
        · have h1 : rstripBlank (x :: xs) = [] := by
            show (if rstripBlank xs = [] then (if isBlankLine x then [] else [x])
                  else x :: rstripBlank xs) = []
            rw [if_pos hr, if_pos hx]
          rw [h1]
          rfl
        · intro l hl
          rcases List.mem_cons.mp hl with h1 | h2
          · rw [h1]; exact hx
          · exact hbl l (hxe ▸ h2)
      · refine ⟨xs, ?_, fun l hl => hbl l (hxe ▸ hl)⟩
        have h1 : rstripBlank (x :: xs) = [x] := by
          show (if rstripBlank xs = [] then (if isBlankLine x then [] else [x])
                else x :: rstripBlank xs) = [x]
          rw [if_pos hr, if_neg hx]
        rw [h1]
        rfl
    · refine ⟨rest, ?_, hbl⟩
      have h1 : rstripBlank (x :: xs) = x :: rstripBlank xs := by
        show (if rstripBlank xs = [] then (if isBlankLine x then [] else [x])
              else x :: rstripBlank xs) = _
        rw [if_neg hr]
      rw [h1, List.cons_append, ← hxs]

theorem dropWhileHeadFalse (p : String → Bool) :
    ∀ (ls : List String) (l : String) (tl : List String),
      ls.dropWhile p = l :: tl → p l = false
  | [], l, tl => by
    intro h
    simp [List.dropWhile] at h
  | x :: xs, l, tl => by
    intro h
    rw [List.dropWhile_cons] at h
    cases hpx : p x with
    | true =>
      rw [hpx] at h
      simp at h
      exact dropWhileHeadFalse p xs l tl h
    | false =>
      rw [hpx] at h
      simp at h
      rw [← h.1]
      exact hpx

theorem dropWhileBlankAppend :
    ∀ (bs rest : List String), (∀ l ∈ bs, isBlankLine l = true) →
      (bs ++ rest).dropWhile isBlankLine = rest.dropWhile isBlankLine
  | [], rest, _ => rfl
  | b :: bs, rest, h => by
    have hb : isBlankLine b = true := h b (List.mem_cons_self b bs)
    rw [List.cons_append, List.dropWhile_cons, if_pos hb]
    exact dropWhileBlankAppend bs rest (fun l hl => h l (List.mem_cons_of_mem b hl))

theorem takeAppendLen {α : Type} : ∀ (l1 l2 : List α), (l1 ++ l2).take l1.length = l1
  | [], _ => rfl
  | x :: xs, l2 => by
    rw [List.cons_append]
    show x :: (xs ++ l2).take xs.length = x :: xs
    rw [takeAppendLen xs l2]

theorem dropAppendLen {α : Type} : ∀ (l1 l2 : List α), (l1 ++ l2).drop l1.length = l2
  | [], _ => rfl
  | x :: xs, l2 => by
    rw [List.cons_append]
    show (xs ++ l2).drop xs.length = l2
    exact dropAppendLen xs l2

theorem blockScan_eq (d : Nat) :
    ∀ (ls : List String) (j acc : Nat),
      blockScan d ls j acc =
        match (rstripBlank (ls.takeWhile (deeperOrBlank d))).length with
        | 0 => acc
        | Nat.succ e => j + e
  | [], _, _ => rfl
  | line :: rest, j, acc => by
    by_cases hb : isBlankLine line = true
    · have hd : deeperOrBlank d line = true := by simp [deeperOrBlank, hb]
      have h1 : blockScan d (line :: rest) j acc = blockScan d rest (j + 1) acc := by
        show (if isBlankLine line then blockScan d rest (j + 1) acc
              else if d < indentOf line then blockScan d rest (j + 1) j else acc) = _
        rw [if_pos hb]
      have h2 : (line :: rest).takeWhile (deeperOrBlank d)
          = line :: rest.takeWhile (deeperOrBlank d) := by
        rw [List.takeWhile_cons, if_pos hd]
      have h3 : rstripBlank (line :: rest.takeWhile (deeperOrBlank d))
          = if rstripBlank (rest.takeWhile (deeperOrBlank d)) = [] then []
            else line :: rstripBlank (rest.takeWhile (deeperOrBlank d)) := by
        show (if rstripBlank (rest.takeWhile (deeperOrBlank d)) = []
              then (if isBlankLine line then [] else [line])
              else line :: rstripBlank (rest.takeWhile (deeperOrBlank d))) = _
        by_cases hr : rstripBlank (rest.takeWhile (deeperOrBlank d)) = []
        · rw [if_pos hr, if_pos hb, if_pos hr]
        · rw [if_neg hr, if_neg hr]
      rw [h1, blockScan_eq d rest (j + 1) acc, h2, h3]
      by_cases hr : rstripBlank (rest.takeWhile (deeperOrBlank d)) = []
      · rw [if_pos hr, hr]
        show acc = acc
        rfl
      · rw [if_neg hr]
        cases hL : rstripBlank (rest.takeWhile (deeperOrBlank d)) with
        | nil => exact absurd hL hr
        | cons a as =>
          show j + 1 + as.length = j + (as.length + 1)
          omega
    · by_cases hdeep : d < indentOf line
      · have hd : deeperOrBlank d line = true := by simp [deeperOrBlank, hdeep]
        have h1 : blockScan d (line :: rest) j acc = blockScan d rest (j + 1) j := by
          show (if isBlankLine line then blockScan d rest (j + 1) acc
                else if d < indentOf line then blockScan d rest (j + 1) j else acc) = _
          rw [if_neg hb, if_pos hdeep]
        have h2 : (line :: rest).takeWhile (deeperOrBlank d)
            = line :: rest.takeWhile (deeperOrBlank d) := by
          rw [List.takeWhile_cons, if_pos hd]
        have h3 : rstripBlank (line :: rest.takeWhile (deeperOrBlank d))
            = if rstripBlank (rest.takeWhile (deeperOrBlank d)) = [] then [line]
              else line :: rstripBlank (rest.takeWhile (deeperOrBlank d)) := by
          show (if rstripBlank (rest.takeWhile (deeperOrBlank d)) = []
                then (if isBlankLine line then [] else [line])
                else line :: rstripBlank (rest.takeWhile (deeperOrBlank d))) = _
          by_cases hr : rstripBlank (rest.takeWhile (deeperOrBlank d)) = []
          · rw [if_pos hr, if_neg hb, if_pos hr]
          · rw [if_neg hr, if_neg hr]
        rw [h1, blockScan_eq d rest (j + 1) j, h2, h3]
        by_cases hr : rstripBlank (rest.takeWhile (deeperOrBlank d)) = []
        · rw [if_pos hr, hr]
          show j = j + 0
          rfl
        · rw [if_neg hr]
          cases hL : rstripBlank (rest.takeWhile (deeperOrBlank d)) with
          | nil => exact absurd hL hr
          | cons a as =>
            show j + 1 + as.length = j + (as.length + 1)
            omega
      · have hd : deeperOrBlank d line = false := by simp [deeperOrBlank, hb, hdeep]
        have h1 : blockScan d (line :: rest) j acc = acc := by
          show (if isBlankLine line then blockScan d rest (j + 1) acc
                else if d < indentOf line then blockScan d rest (j + 1) j else acc) = _
          rw [if_neg hb, if_neg hdeep]
        have h2 : (line :: rest).takeWhile (deeperOrBlank d) = [] := by
          rw [List.takeWhile_cons, if_neg (by simp [hd])]
        rw [h1, h2]
        show acc = acc
        rfl

theorem deleteYamlText_found (text key : String) (i : Nat)
    (h : findKeyLine (linesOf text) (splitKey key) 0 0 = some i) :
    deleteYamlText text key = applyLineDelete (linesOf text) i (i + blockLen text i) := by
  show (match findKeyLine (linesOf text) (splitKey key) 0 0 with
        | none => text
        | some i =>
          applyLineDelete (linesOf text) i
            (blockScan (indentOf ((linesOf text).getD i ""))
              ((linesOf text).drop (i + 1)) (i + 1) i))
      = applyLineDelete (linesOf text) i (i + blockLen text i)
  rw [h]
  show applyLineDelete (linesOf text) i
      (blockScan (indentOf ((linesOf text).getD i ""))
        ((linesOf text).drop (i + 1)) (i + 1) i)
    = applyLineDelete (linesOf text) i (i + blockLen text i)
  rw [blockScan_eq]
  have hb : blockLen text i = (rstripBlank (((linesOf text).drop (i + 1)).takeWhile
      (deeperOrBlank (indentOf ((linesOf text).getD i ""))))).length := rfl
  rw [hb]
  cases hL : (rstripBlank (((linesOf text).drop (i + 1)).takeWhile
      (deeperOrBlank (indentOf ((linesOf text).getD i ""))))).length with
  | zero => rfl
  | succ e =>
    show applyLineDelete (linesOf text) i (i + 1 + e)
      = applyLineDelete (linesOf text) i (i + (e + 1))
    rw [show i + 1 + e = i + (e + 1) from by omega]

theorem takeStripMem (p : String → Bool) (ls : List String) :
    ∀ l ∈ ls.take (rstripBlank (ls.takeWhile p)).length, p l = true := by
  obtain ⟨bs, hdecomp, hblank⟩ := rstripBlank_decomp (ls.takeWhile p)
  have htd : ls.takeWhile p ++ ls.dropWhile p = ls := List.takeWhile_append_dropWhile p ls
  have hls : ls = rstripBlank (ls.takeWhile p) ++ (bs ++ ls.dropWhile p) := by
    rw [← List.append_assoc, ← hdecomp, htd]
  have htake : ls.take (rstripBlank (ls.takeWhile p)).length
      = rstripBlank (ls.takeWhile p) := by
    have h2 := takeAppendLen (rstripBlank (ls.takeWhile p)) (bs ++ ls.dropWhile p)
    rw [← hls] at h2
    exact h2
  intro l hl
  rw [htake] at hl
  have hmem : l ∈ ls.takeWhile p := by
    rw [hdecomp]
    exact List.mem_append.mpr (Or.inl hl)
  exact memTakeWhileTrue p ls l hmem

theorem dropStripHead (p : String → Bool) (ls : List String)
    (hpb : ∀ l, p l = false → isBlankLine l = false) :
    ∀ l, ((ls.drop (rstripBlank (ls.takeWhile p)).length).dropWhile isBlankLine).head?
        = some l → p l = false := by
  obtain ⟨bs, hdecomp, hblank⟩ := rstripBlank_decomp (ls.takeWhile p)
  have htd : ls.takeWhile p ++ ls.dropWhile p = ls := List.takeWhile_append_dropWhile p ls
  have hls : ls = rstripBlank (ls.takeWhile p) ++ (bs ++ ls.dropWhile p) := by
    rw [← List.append_assoc, ← hdecomp, htd]
  have hdrop : ls.drop (rstripBlank (ls.takeWhile p)).length = bs ++ ls.dropWhile p := by
    have h2 := dropAppendLen (rstripBlank (ls.takeWhile p)) (bs ++ ls.dropWhile p)
    rw [← hls] at h2
    exact h2
  intro l hl
  rw [hdrop, dropWhileBlankAppend bs (ls.dropWhile p) hblank] at hl
  cases hdw : ls.dropWhile p with
  | nil =>
    rw [hdw] at hl
    simp [List.dropWhile] at hl
  | cons a tl =>
    have hpa : p a = false := dropWhileHeadFalse p ls a tl hdw
    have hba : isBlankLine a = false := hpb a hpa
    rw [hdw, List.dropWhile_cons, if_neg (by simp [hba])] at hl
    simp at hl
    rw [← hl]
    exact hpa

/-- C5: deleting a located key removes the key line together with the
following run of blank or strictly deeper lines stripped of its trailing
blank lines: every deleted line after the key line is blank or strictly
deeper than the key indent, blank lines after the last deeper line survive,
and the first non-blank surviving line after the removed region is neither
blank nor strictly deeper (its indent is at most the key indent); all lines
outside the removed range are kept by the range deletion. -/
theorem c5_amended_block_delete (text key : String) (i : Nat)
    (h : findKeyLine (linesOf text) (splitKey key) 0 0 = some i) :
    deleteYamlText text key = applyLineDelete (linesOf text) i (i + blockLen text i)
    ∧ (∀ l ∈ ((linesOf text).drop (i + 1)).take (blockLen text i),
        deeperOrBlank (keyIndent text i) l = true)
    ∧ (∀ l, ((((linesOf text).drop (i + 1)).drop (blockLen text i)).dropWhile
          isBlankLine).head? = some l →
        deeperOrBlank (keyIndent text i) l = false) := by
  refine ⟨deleteYamlText_found text key i h, ?_, ?_⟩
  · intro l hl
    have hb : blockLen text i = (rstripBlank (((linesOf text).drop (i + 1)).takeWhile
        (deeperOrBlank (keyIndent text i)))).length := rfl
    rw [hb] at hl
    exact takeStripMem (deeperOrBlank (keyIndent text i)) ((linesOf text).drop (i + 1)) l hl
  · intro l hl
    have hb : blockLen text i = (rstripBlank (((linesOf text).drop (i + 1)).takeWhile
        (deeperOrBlank (keyIndent text i)))).length := rfl
    rw [hb] at hl
    refine dropStripHead (deeperOrBlank (keyIndent text i)) ((linesOf text).drop (i + 1))
      ?_ l hl
    intro l2 hpl
    simp [deeperOrBlank] at hpl
    exact hpl.1

/-- Witness for the amended C5 statement at the spec example: deleting
user.login from the four-line document locates line 1, and the characterized
range deletion produces exactly the expected remaining document. -/
theorem c5_amended_witness :
    findKeyLine (linesOf "user:\n  login: A\n  name: B\nother: C")
        (splitKey "user.login") 0 0 = some 1
    ∧ deleteYamlText "user:\n  login: A\n  name: B\nother: C" "user.login"
        = "user:\n  name: B\nother: C" :=
  ⟨by decide,
   by
     have h := (c5_amended_block_delete "user:\n  login: A\n  name: B\nother: C"
         "user.login" 1 (by decide)).1
     rw [h]
     decide⟩

end SpringI18n
